import Mathlib

/-!
# Verification of the `vector2d` package

A shallow embedding of `src/vector2d/vector2d.py` (class `Vector2d`) and
`src/vector2d/short_vector2d.py` (class `ShortVector2d`), together with
proofs about construction, equality, hashing, formatting and the binary
encoding/decoding of vectors.

Python `float` values are modelled as rational numbers: an IEEE-754 binary64
value is the exact rational it denotes, and the conversions performed by
`float(...)`, `array('d', ...)` and `array('f', ...)` are modelled by
round-to-nearest, ties-to-even rounding onto the binary64 / binary32 grids
(`roundF64` / `roundF32` below), including gradual underflow to the
subnormal range.  Non-finite values (infinities, NaN) are outside the model;
theorems about serialisation therefore carry explicit magnitude bounds that
keep all intermediate values finite in IEEE-754 terms.
-/

namespace Vector2d

/-! ## Base-2 logarithms, executable by the kernel -/

/-- Fuel-driven floor of `log₂` on naturals (`natLog2Go fuel n`); structural
recursion on the fuel keeps it reducible by the kernel. -/
def natLog2Go : ℕ → ℕ → ℕ
  | 0, _ => 0
  | fuel + 1, n => if n ≤ 1 then 0 else natLog2Go fuel (n / 2) + 1

/-- Floor of `log₂ n` for `1 ≤ n` (and `0` at `0`). -/
def natLog2 (n : ℕ) : ℕ := natLog2Go n n

/-- Floor of `log₂ q` for a positive rational `q` (junk value elsewhere). -/
def ratLog2 (q : ℚ) : ℤ :=
  let e0 : ℤ := (natLog2 q.num.toNat : ℤ) - (natLog2 q.den : ℤ)
  if (2 : ℚ) ^ e0 ≤ q then e0 else e0 - 1

/-! ## Round to nearest, ties to even -/

/-- Round to the nearest integer, ties to the even integer: the rounding mode
used by IEEE-754 conversions (Python's `float(...)`, `array('f', ...)`
narrowing, and decimal formatting). -/
def roundHE {K : Type*} [LinearOrderedField K] [FloorRing K] (x : K) : ℤ :=
  if Int.fract x < 1/2 then ⌊x⌋
  else if 1/2 < Int.fract x then ⌊x⌋ + 1
  else if 2 ∣ ⌊x⌋ then ⌊x⌋ else ⌊x⌋ + 1

/-! ## Rounding onto an IEEE-754 value grid

`roundFmt prec emin q` is the rational value of the IEEE-754
round-to-nearest-even conversion of `q` into a binary format with `prec`
significand bits and minimum normal exponent `emin`, with gradual underflow
(values below `2^emin` round on the fixed subnormal grid `2^(emin-prec+1)`)
and with no overflow threshold (theorems that depend on real IEEE-754
behaviour carry explicit magnitude bounds placing them below the binary
format's largest finite value). -/

/-- The rounding grid exponent used by format `(prec, emin)` at magnitude
`|q|`. -/
def fmtExp (prec : ℕ) (emin : ℤ) (q : ℚ) : ℤ :=
  max (ratLog2 |q|) emin - ((prec : ℤ) - 1)

/-- Round `q` to the IEEE-754 grid of `prec` significand bits with minimum
normal exponent `emin` (round to nearest, ties to even). -/
def roundFmt (prec : ℕ) (emin : ℤ) (q : ℚ) : ℚ :=
  if q = 0 then 0
  else ((roundHE (q * 2 ^ (-fmtExp prec emin q)) : ℤ) : ℚ) * 2 ^ fmtExp prec emin q

/-- Conversion of a Python numeric value to IEEE-754 binary64, the format of
a Python `float` (what `float(x)` does to an exact numeric input). -/
def roundF64 (q : ℚ) : ℚ := roundFmt 53 (-1022) q

/-- Conversion of a Python `float` to IEEE-754 binary32, the narrowing done
by `array('f', ...)` when `ShortVector2d` serialises its coordinates. -/
def roundF32 (q : ℚ) : ℚ := roundFmt 24 (-126) q

/-! ## IEEE-754 bit patterns and little-endian bytes

Model of what `bytes(array(typecode, ...))` and `memoryview(...).cast(typecode)`
do: each coordinate is stored as an IEEE-754 binary64 (`typecode 'd'`) or
binary32 (`typecode 'f'`) bit pattern, laid out in little-endian
(platform-native on all CPython reference platforms) byte order. -/

/-- `w`-byte little-endian encoding of `n`. -/
def natToLE : ℕ → ℕ → List ℕ
  | 0, _ => []
  | w + 1, n => n % 256 :: natToLE w (n / 256)

/-- Read back a little-endian byte list as a natural number. -/
def natFromLE : List ℕ → ℕ
  | [] => 0
  | b :: t => b + 256 * natFromLE t

/-- Sign bit of the IEEE encoding of `q`. -/
def bitsSign (q : ℚ) : ℕ := if q < 0 then 1 else 0

/-- Exponent (before any mantissa-overflow renormalisation) of the IEEE
encoding of `q` in a format with minimum normal exponent `emin`. -/
def bitsExp0 (emin : ℤ) (q : ℚ) : ℤ := max (ratLog2 |q|) emin

/-- Integer significand of `|q|` scaled to the format's grid, rounded to
nearest (ties to even). -/
def bitsMant0 (prec : ℕ) (emin : ℤ) (q : ℚ) : ℤ :=
  roundHE (|q| * 2 ^ (((prec : ℤ) - 1) - bitsExp0 emin q))

/-- Significand after renormalising the `2^prec` overflow case. -/
def bitsMant (prec : ℕ) (emin : ℤ) (q : ℚ) : ℤ :=
  if bitsMant0 prec emin q = 2 ^ prec then 2 ^ (prec - 1) else bitsMant0 prec emin q

/-- Exponent after renormalising the `2^prec` overflow case. -/
def bitsExp (prec : ℕ) (emin : ℤ) (q : ℚ) : ℤ :=
  if bitsMant0 prec emin q = 2 ^ prec then bitsExp0 emin q + 1 else bitsExp0 emin q

/-- The IEEE-754 bit pattern (sign, biased exponent, mantissa fields) of the
rounded value of `q` in a binary format with `prec` significand bits,
minimum normal exponent `emin` and `we` exponent-field bits. -/
def bitsFmt (prec : ℕ) (emin : ℤ) (we : ℕ) (q : ℚ) : ℕ :=
  if q = 0 then 0
  else if bitsMant prec emin q < 2 ^ (prec - 1) then
    bitsSign q * 2 ^ (we + (prec - 1)) + (bitsMant prec emin q).toNat
  else
    bitsSign q * 2 ^ (we + (prec - 1))
      + (bitsExp prec emin q - emin + 1).toNat * 2 ^ (prec - 1)
      + (bitsMant prec emin q - 2 ^ (prec - 1)).toNat

/-- The rational value denoted by an IEEE-754 bit pattern in the format with
`prec` significand bits, minimum normal exponent `emin` and `we`
exponent-field bits (biased exponent `0` is the subnormal range). -/
def valFmt (prec : ℕ) (emin : ℤ) (we : ℕ) (n : ℕ) : ℚ :=
  let mant : ℕ := n % 2 ^ (prec - 1)
  let ef : ℕ := n / 2 ^ (prec - 1) % 2 ^ we
  let s : ℕ := n / 2 ^ ((prec - 1) + we) % 2
  let sgn : ℚ := if s = 1 then -1 else 1
  if ef = 0 then sgn * (mant : ℚ) * 2 ^ (emin - ((prec : ℤ) - 1))
  else sgn * ((2 ^ (prec - 1) + mant : ℕ) : ℚ) * 2 ^ (emin - (prec : ℤ) + (ef : ℤ))

/-- Largest finite value of the binary format with `prec` significand bits,
minimum normal exponent `emin` and `we` exponent bits. -/
def maxFmt (prec : ℕ) (emin : ℤ) (we : ℕ) : ℚ :=
  (2 ^ prec - 1 : ℚ) * 2 ^ (emin + 2 ^ we - 3 - ((prec : ℤ) - 1))

/-! ## The program model

Shallow embedding of `Vector2d` (`src/vector2d/vector2d.py`) and
`ShortVector2d` (`src/vector2d/short_vector2d.py`). -/

/-- The two classes of the package: the base class `Vector2d` and its
subclass `ShortVector2d`. -/
inductive VClass : Type
  | base : VClass
  | short : VClass
  deriving DecidableEq

/-- The class attribute `typecode`: `'d'` on `Vector2d`, overridden to `'f'`
on `ShortVector2d` (the only member `ShortVector2d` overrides). -/
def typecode : VClass → Char
  | .base => 'd'
  | .short => 'f'

/-- A constructed vector: its class together with the two private instance
attributes `__x` and `__y` (Python floats, modelled as the exact rational
values they denote). -/
structure Vec : Type where
  cls : VClass
  x : ℚ
  y : ℚ
  deriving DecidableEq

/-- A primitive Python value passed to the constructor or found in an
iterable being compared against a vector. -/
inductive PyVal : Type
  | num : ℚ → PyVal
  | str : String → PyVal
  deriving DecidableEq

/-- Value of a list of decimal digit characters. -/
def digitsVal (l : List Char) : ℕ :=
  l.foldl (fun a c => 10 * a + (c.toNat - 48)) 0

/-- Parse an unsigned decimal literal: digits with an optional fractional
part, at least one digit present. -/
def parseUnsigned (l : List Char) : Option ℚ :=
  let ip := l.takeWhile Char.isDigit
  let rest := l.dropWhile Char.isDigit
  match rest with
  | [] => if ip.isEmpty then none else some ((digitsVal ip : ℚ))
  | c :: frac =>
    if c = '.' ∧ frac.all Char.isDigit ∧ (ip ≠ [] ∨ frac ≠ []) then
      some ((digitsVal ip : ℚ) + (digitsVal frac : ℚ) / 10 ^ frac.length)
    else none

/-- Parse a signed decimal literal. -/
def parseDecStr (s : String) : Option ℚ :=
  match s.toList with
  | '-' :: t => (parseUnsigned t).map (fun q => -q)
  | '+' :: t => parseUnsigned t
  | l => parseUnsigned l

/-- Model of Python's `float(x)` builtin on constructor inputs: a numeric
value is converted to the nearest binary64; a string is parsed as a decimal
literal (optional sign, digits, optional fractional part) and converted
likewise; a non-numeric string raises `ValueError` (`none`).  Exponent
notation, `inf`/`nan` spellings and surrounding whitespace are not
modelled, nor are inputs so large that the conversion overflows to
infinity. -/
def pyFloat : PyVal → Option ℚ
  | .num q => some (roundF64 q)
  | .str s => (parseDecStr s).map roundF64

/-- `Vector2d.__init__` (inherited unchanged by `ShortVector2d`):
`self.__x = float(x); self.__y = float(y)`.  A failing conversion raises
`ValueError` and no vector is produced. -/
def initV (c : VClass) (a b : PyVal) : Option Vec :=
  match pyFloat a, pyFloat b with
  | some x, some y => some ⟨c, x, y⟩
  | _, _ => none

/-- Construction from two numeric inputs (this always succeeds). -/
def mkV (c : VClass) (x y : ℚ) : Vec := ⟨c, roundF64 x, roundF64 y⟩

/-- `tuple(self)` via `__iter__`: the coordinates in order `x`, `y`. -/
def tupleOf (v : Vec) : List ℚ := [v.x, v.y]

/-- Python `==` on primitive values: numbers compare numerically, strings by
content, mixed kinds are unequal. -/
def pyValEqB : PyVal → PyVal → Bool
  | .num a, .num b => decide (a = b)
  | .str a, .str b => decide (a = b)
  | _, _ => false

/-- Element-wise tuple comparison of the vector's coordinates against the
elements produced by another iterable. -/
def listEqPy : List ℚ → List PyVal → Bool
  | [], [] => true
  | a :: t, .num b :: u => decide (a = b) && listEqPy t u
  | _, _ => false

/-- The `other` operand of `Vector2d.__eq__`: another vector, an arbitrary
iterable yielding primitive values, or a non-iterable object. -/
inductive Operand : Type
  | vec : Vec → Operand
  | seq : List PyVal → Operand
  | notIterable : Operand

/-- `Vector2d.__eq__`: returns `NotImplemented` (`none`) when `other` is not
an `Iterable`, otherwise `tuple(self) == tuple(other)`. -/
def eqImpl (v : Vec) (o : Operand) : Option Bool :=
  match o with
  | .notIterable => none
  | .vec w => some (decide (tupleOf v = tupleOf w))
  | .seq l => some (listEqPy (tupleOf v) l)

/-- The Python `==` operator built on `__eq__`: when both sides answer
`NotImplemented` the operands compare unequal (identity fallback). -/
def pyEq (v : Vec) (o : Operand) : Bool := (eqImpl v o).getD false

/-- Modulus of Python's numeric hash (`sys.hash_info.modulus`). -/
def hashP : ℕ := 2 ^ 61 - 1

/-- Fuel-driven modular exponentiation (square and multiply), kernel
reducible. -/
def powModGo (m : ℕ) : ℕ → ℕ → ℕ → ℕ
  | 0, _, _ => 1 % m
  | fuel + 1, b, e =>
    if e = 0 then 1 % m
    else if e % 2 = 0 then powModGo m fuel (b * b % m) (e / 2)
    else b * powModGo m fuel (b * b % m) (e / 2) % m

def powMod (m b e : ℕ) : ℕ := powModGo m 64 (b % m) e

/-- CPython's hash of a float, through the documented unified numeric hash:
for the reduced fraction `±num/den`, `num * inv(den)` modulo `2^61 - 1`
(inverse by Fermat's little theorem), negated for negative values, with the
reserved value `-1` mapped to `-2`. -/
def pyHashFloat (q : ℚ) : ℤ :=
  if q = 0 then 0
  else
    let h : ℕ := q.num.natAbs % hashP * powMod hashP (q.den % hashP) (hashP - 2) % hashP
    let h2 : ℤ := if q < 0 then -(h : ℤ) else (h : ℤ)
    if h2 = -1 then -2 else h2

def xxPrime1 : ℕ := 11400714785074694791

def xxPrime2 : ℕ := 14029467366897019727

def xxPrime5 : ℕ := 2870177450012600261

/-- A Python hash value reinterpreted as an unsigned 64-bit lane. -/
def toU64 (z : ℤ) : ℕ := (z % 2 ^ 64).toNat

/-- Rotate a 64-bit word left by 31 bits. -/
def rotl31 (n : ℕ) : ℕ := n * 2 ^ 31 % 2 ^ 64 + n / 2 ^ 33

/-- One accumulation step of CPython's xxHash-style tuple hash. -/
def tupleHashStep (acc lane : ℕ) : ℕ :=
  rotl31 ((acc + lane * xxPrime2) % 2 ^ 64) * xxPrime1 % 2 ^ 64

/-- CPython's tuple hash specialised to pairs: accumulate both lanes, mix in
the length, map the reserved value, reinterpret as signed. -/
def pyHashPair (h1 h2 : ℤ) : ℤ :=
  let acc : ℕ := tupleHashStep (tupleHashStep xxPrime5 (toU64 h1)) (toU64 h2)
  let acc2 : ℕ := (acc + (2 ^^^ (xxPrime5 ^^^ 3527539))) % 2 ^ 64
  if acc2 = 2 ^ 64 - 1 then 1546275796
  else if acc2 < 2 ^ 63 then (acc2 : ℤ) else (acc2 : ℤ) - 2 ^ 64

/-- `Vector2d.__hash__`: `hash((self.x, self.y))`. -/
def pyHash (v : Vec) : ℤ := pyHashPair (pyHashFloat v.x) (pyHashFloat v.y)

/-- `array(tc).itemsize` for the two typecodes in use (`'f'` is 4 bytes,
`'d'` is 8; no other typecode is produced by the program). -/
def itemsize (tc : Char) : ℕ := if tc = 'f' then 4 else 8

/-- The bytes of one coordinate inside `bytes(array(tc, ...))`: the IEEE-754
bit pattern of the (possibly narrowed) value in little-endian byte order. -/
def packFloat (tc : Char) (q : ℚ) : List ℕ :=
  if tc = 'f' then natToLE 4 (bitsFmt 24 (-126) 8 q)
  else natToLE 8 (bitsFmt 53 (-1022) 11 q)

/-- The value denoted by one `itemsize`-wide group of bytes, as read back by
`memoryview(...).cast(tc)`. -/
def valOfBits (tc : Char) (n : ℕ) : ℚ :=
  if tc = 'f' then valFmt 24 (-126) 8 n else valFmt 53 (-1022) 11 n

/-- `Vector2d.__bytes__`:
`bytes([ord(self.typecode)]) + bytes(array(self.typecode, self))`. -/
def bytesV (v : Vec) : List ℕ :=
  (typecode v.cls).toNat
    :: (packFloat (typecode v.cls) v.x ++ packFloat (typecode v.cls) v.y)

/-- `memoryview(octets).cast(tc)`: reinterpret a byte string as consecutive
values of the typecode's width; raises (`none`) on an unknown typecode or
when the length is not a multiple of the width. -/
def castVals (tc : Char) (bs : List ℕ) : Option (List ℚ) :=
  if (tc = 'd' ∨ tc = 'f') ∧ bs.length % itemsize tc = 0 then
    some ((List.range (bs.length / itemsize tc)).map
      (fun i => valOfBits tc (natFromLE ((bs.drop (i * itemsize tc)).take (itemsize tc)))))
  else none

/-- The classmethod `Vector2d.frombytes` (inherited by `ShortVector2d`):
`typecode = chr(octets[0])`, `memv = memoryview(octets[1:]).cast(typecode)`,
`return cls(*memv)` — the constructed vector belongs to the class `cls` on
which the method is invoked.  Malformed input (empty string, unknown
typecode byte, wrong length, an item count other than two) raises
(`none`). -/
def frombytes (c : VClass) (octets : List ℕ) : Option Vec :=
  match octets with
  | [] => none
  | t :: rest =>
    match castVals (Char.ofNat t) rest with
    | some [a, b] => initV c (.num a) (.num b)
    | _ => none

/-- `Vector2d.__abs__`: `math.hypot(self.x, self.y)`.  The rounding of the
hypotenuse to binary64 is far below the precision any formatted output in
this development observes and is not modelled. -/
noncomputable def magV (v : Vec) : ℝ :=
  Real.sqrt ((v.x : ℝ) ^ 2 + (v.y : ℝ) ^ 2)

/-- Model of C `atan2(y, x)` as used by `math.atan2`. -/
noncomputable def pyAtan2 (y x : ℝ) : ℝ :=
  if 0 < x then Real.arctan (y / x)
  else if x < 0 then
    (if 0 ≤ y then Real.arctan (y / x) + Real.pi else Real.arctan (y / x) - Real.pi)
  else if 0 < y then Real.pi / 2
  else if y < 0 then -(Real.pi / 2)
  else 0

/-- `Vector2d.angle`: `math.atan2(self.y, self.x)`. -/
noncomputable def angleV (v : Vec) : ℝ := pyAtan2 (v.y : ℝ) (v.x : ℝ)

/-- Zero-padded two-digit rendering of `n < 100`. -/
def padCents (n : ℕ) : String := if n < 10 then "0" ++ toString n else toString n

/-- `format(value, '.2f')`: the value rendered with exactly two decimal
places, correctly rounded (ties to even). -/
noncomputable def renderFixed2 (r : ℝ) : String :=
  if roundHE (r * 100) < 0 then
    "-" ++ toString ((-roundHE (r * 100)).toNat / 100) ++ "."
      ++ padCents ((-roundHE (r * 100)).toNat % 100)
  else
    toString ((roundHE (r * 100)).toNat / 100) ++ "."
      ++ padCents ((roundHE (r * 100)).toNat % 100)

open Classical in
/-- `format(value, '')`, Python's default (shortest round-trip) float
rendering, modelled for integer-valued arguments (`n.0`); the shortest
round-trip algorithm for other values is not modelled and yields a sentinel
no theorem relies on. -/
noncomputable def renderDefault (r : ℝ) : String :=
  if r = ((roundHE r : ℤ) : ℝ) then toString (roundHE r) ++ ".0"
  else "<shortest-repr-not-modelled>"

noncomputable def fmtComponent (spec : String) (r : ℝ) : String :=
  if spec = "" then renderDefault r
  else if spec = ".2f" then renderFixed2 r
  else "<spec-not-modelled>"

/-- `format_spec.endswith('p')`: the last character is `'p'`. -/
def endsWithP (s : String) : Bool := s.toList.getLast? = some 'p'

/-- `format_spec[:-1]`: the string without its final character. -/
def dropLastChar (s : String) : String := String.mk s.toList.dropLast

/-- `Vector2d.__format__`: a trailing `'p'` selects polar rendering
`<magnitude, angle>` with the remaining spec applied to both components;
otherwise Cartesian `(x, y)` with the full spec applied to both
coordinates. -/
noncomputable def pyFormat (v : Vec) (spec : String) : String :=
  if endsWithP spec then
    "<" ++ fmtComponent (dropLastChar spec) (magV v) ++ ", "
      ++ fmtComponent (dropLastChar spec) (angleV v) ++ ">"
  else
    "(" ++ fmtComponent spec ((v.x : ℝ)) ++ ", " ++ fmtComponent spec ((v.y : ℝ)) ++ ")"

/-! ## Decode-of-encode lemmas -/

/-- Largest finite binary64 value. -/
def maxF64 : ℚ := maxFmt 53 (-1022) 11

/-- Largest finite binary32 value. -/
def maxF32 : ℚ := maxFmt 24 (-126) 8

theorem natLog2Go_correct : ∀ (fuel n : ℕ), 1 ≤ n → n ≤ fuel →
    2 ^ natLog2Go fuel n ≤ n ∧ n < 2 ^ (natLog2Go fuel n + 1) := by
  intro fuel
  induction fuel with
  | zero => intro n h1 h2; omega
  | succ f ih =>
    intro n h1 h2
    by_cases hle : n ≤ 1
    · have : n = 1 := by omega
      simp [natLog2Go, this]
    · have h2' : n / 2 ≤ f := by omega
      have h1' : 1 ≤ n / 2 := by omega
      obtain ⟨ha, hb⟩ := ih (n / 2) h1' h2'
      have hgo : natLog2Go (f + 1) n = natLog2Go f (n / 2) + 1 := by
        simp [natLog2Go, hle]
      rw [hgo]
      constructor
      · calc 2 ^ (natLog2Go f (n / 2) + 1) = 2 * 2 ^ natLog2Go f (n / 2) := by ring
        _ ≤ 2 * (n / 2) := by omega
        _ ≤ n := by omega
      · have : n < 2 * (2 ^ (natLog2Go f (n / 2) + 1)) := by omega
        calc n < 2 * 2 ^ (natLog2Go f (n / 2) + 1) := this
        _ = 2 ^ (natLog2Go f (n / 2) + 1 + 1) := by ring

theorem natLog2_correct (n : ℕ) (h1 : 1 ≤ n) :
    2 ^ natLog2 n ≤ n ∧ n < 2 ^ (natLog2 n + 1) :=
  natLog2Go_correct n n h1 le_rfl

theorem ratLog2_correct (q : ℚ) (hq : 0 < q) :
    (2 : ℚ) ^ ratLog2 q ≤ q ∧ q < 2 ^ (ratLog2 q + 1) := by
  have hnum : 1 ≤ q.num.toNat := by
    have := Rat.num_pos.mpr hq
    omega
  have hden : 1 ≤ q.den := q.pos
  obtain ⟨ha1, ha2⟩ := natLog2_correct q.num.toNat hnum
  obtain ⟨hd1, hd2⟩ := natLog2_correct q.den hden
  set la := natLog2 q.num.toNat with hla
  set ld := natLog2 q.den with hld
  set e0 : ℤ := (la : ℤ) - (ld : ℤ) with he0
  have hqeq : q = (q.num.toNat : ℚ) / (q.den : ℚ) := by
    have hn : (0:ℤ) ≤ q.num := le_of_lt (Rat.num_pos.mpr hq)
    have hcast : ((q.num.toNat : ℕ) : ℚ) = ((q.num : ℤ) : ℚ) := by
      exact_mod_cast congrArg (fun z : ℤ => (z : ℚ)) (Int.toNat_of_nonneg hn)
    rw [hcast]
    exact (Rat.num_div_den q).symm
  have hdpos : (0 : ℚ) < (q.den : ℚ) := by exact_mod_cast hden
  -- q < 2 ^ (e0 + 1)
  have hub : q < 2 ^ (e0 + 1) := by
    rw [hqeq, div_lt_iff hdpos]
    have h1 : ((q.num.toNat : ℚ)) < 2 ^ (la + 1) := by exact_mod_cast ha2
    have h2 : (2 : ℚ) ^ ld ≤ (q.den : ℚ) := by exact_mod_cast hd1
    calc ((q.num.toNat : ℚ)) < 2 ^ (la + 1) := h1
    _ = 2 ^ (e0 + 1) * 2 ^ (ld : ℤ) := by
        rw [← zpow_natCast (2:ℚ) (la + 1), ← zpow_add₀ (by norm_num : (2:ℚ) ≠ 0)]
        congr 1
        omega
    _ ≤ 2 ^ (e0 + 1) * (q.den : ℚ) := by
        have : (0:ℚ) < 2 ^ (e0 + 1) := by positivity
        have h2' : (2:ℚ) ^ (ld : ℤ) ≤ (q.den : ℚ) := by
          rw [zpow_natCast]; exact h2
        nlinarith
  -- 2 ^ (e0 - 1) < q
  have hlb : (2 : ℚ) ^ (e0 - 1) < q := by
    rw [hqeq, lt_div_iff hdpos]
    have h1 : (2 : ℚ) ^ la ≤ ((q.num.toNat : ℚ)) := by exact_mod_cast ha1
    have h2 : ((q.den : ℚ)) < 2 ^ (ld + 1) := by exact_mod_cast hd2
    calc (2:ℚ) ^ (e0 - 1) * (q.den : ℚ) < 2 ^ (e0 - 1) * 2 ^ ((ld : ℤ) + 1) := by
          have : (0:ℚ) < 2 ^ (e0 - 1) := by positivity
          have h2' : ((q.den : ℚ)) < (2:ℚ) ^ ((ld : ℤ) + 1) := by
            rw [show ((ld : ℤ) + 1) = ((ld + 1 : ℕ) : ℤ) by omega, zpow_natCast]
            exact h2
          nlinarith
    _ = 2 ^ (la : ℤ) := by
          rw [← zpow_add₀ (by norm_num : (2:ℚ) ≠ 0)]
          congr 1
          omega
    _ ≤ ((q.num.toNat : ℚ)) := by rw [zpow_natCast]; exact h1
  simp only [ratLog2]
  by_cases hcase : (2 : ℚ) ^ e0 ≤ q
  · rw [if_pos hcase]
    exact ⟨hcase, hub⟩
  · rw [if_neg hcase]
    refine ⟨hlb.le, ?_⟩
    have : e0 - 1 + 1 = e0 := by ring
    rw [this]
    exact lt_of_not_le hcase

theorem ratLog2_unique (q : ℚ) (e : ℤ) (h1 : (2:ℚ) ^ e ≤ q) (h2 : q < 2 ^ (e + 1)) :
    ratLog2 q = e := by
  have hq : 0 < q := lt_of_lt_of_le (by positivity) h1
  obtain ⟨ha, hb⟩ := ratLog2_correct q hq
  by_contra hne
  rcases lt_or_gt_of_ne hne with hlt | hgt
  · have : ratLog2 q + 1 ≤ e := by omega
    have hle : (2:ℚ) ^ (ratLog2 q + 1) ≤ 2 ^ e := by
      exact zpow_le_zpow_right₀ (by norm_num) this
    linarith
  · have : e + 1 ≤ ratLog2 q := by omega
    have hle : (2:ℚ) ^ (e + 1) ≤ 2 ^ ratLog2 q := by
      exact zpow_le_zpow_right₀ (by norm_num) this
    linarith

theorem roundHE_intCast {K : Type*} [LinearOrderedField K] [FloorRing K]
    (n : ℤ) : roundHE ((n : K)) = n := by
  simp [roundHE, Int.fract_intCast]

theorem roundHE_le {K : Type*} [LinearOrderedField K] [FloorRing K] (x : K) :
    |((roundHE x : ℤ) : K) - x| ≤ 1/2 := by
  have hf0 : 0 ≤ Int.fract x := Int.fract_nonneg x
  have hf1 : Int.fract x < 1 := Int.fract_lt_one x
  have hfr : Int.fract x = x - ⌊x⌋ := rfl
  rw [roundHE]
  split_ifs with h1 h2 h3
  · rw [abs_le]
    constructor <;> nlinarith [Int.fract_nonneg x, hfr]
  · push_cast
    rw [abs_le]
    constructor <;> nlinarith [hfr]
  · rw [abs_le]
    have : Int.fract x = 1/2 := by linarith
    constructor <;> nlinarith [hfr]
  · push_cast
    have : Int.fract x = 1/2 := by linarith
    rw [abs_le]
    constructor <;> nlinarith [hfr]

theorem roundHE_neg {K : Type*} [LinearOrderedField K] [FloorRing K] (x : K) :
    roundHE (-x) = -roundHE x := by
  by_cases hint : Int.fract x = 0
  · obtain ⟨n, hn⟩ : ∃ n : ℤ, x = (n : K) := by
      refine ⟨⌊x⌋, ?_⟩
      have h := Int.floor_add_fract x
      rw [hint, add_zero] at h
      exact h.symm
    subst hn
    rw [show -((n : K)) = ((-n : ℤ) : K) by push_cast; ring,
      roundHE_intCast, roundHE_intCast]
  · have hf0 : 0 < Int.fract x := lt_of_le_of_ne (Int.fract_nonneg x) (Ne.symm hint)
    have hf1 : Int.fract x < 1 := Int.fract_lt_one x
    have hfract : Int.fract (-x) = 1 - Int.fract x := Int.fract_neg hint
    have hfloor : ⌊-x⌋ = -⌊x⌋ - 1 := by
      have h1 := Int.floor_add_fract (-x)
      have h2 := Int.floor_add_fract x
      rw [hfract] at h1
      have hc : ((⌊-x⌋ : ℤ) : K) = ((-⌊x⌋ - 1 : ℤ) : K) := by push_cast; linarith
      exact_mod_cast hc
    rw [roundHE, roundHE, hfract, hfloor]
    split_ifs with h1 h2 h3 h4 h5 h6 h7 h8 <;> try omega
    all_goals (exfalso; first
      | (apply h3; omega)
      | (apply h6; omega)
      | linarith)

theorem roundHE_eq_of_lt_half {K : Type*} [LinearOrderedField K] [FloorRing K]
    (x : K) (n : ℤ) (h1 : (n : K) ≤ x) (h2 : x < (n : K) + 1/2) :
    roundHE x = n := by
  have hfl : ⌊x⌋ = n := by
    rw [Int.floor_eq_iff]
    constructor
    · exact h1
    · push_cast
      linarith
  have hfr : Int.fract x < 1/2 := by
    have : Int.fract x = x - ⌊x⌋ := rfl
    rw [this, hfl]
    linarith
  rw [roundHE, if_pos hfr, hfl]

theorem roundHE_eq_of_gt_half {K : Type*} [LinearOrderedField K] [FloorRing K]
    (x : K) (n : ℤ) (h1 : (n : K) + 1/2 < x) (h2 : x < (n : K) + 1) :
    roundHE x = n + 1 := by
  have hfl : ⌊x⌋ = n := by
    rw [Int.floor_eq_iff]
    constructor
    · linarith
    · push_cast
      linarith
  have hfr' : Int.fract x = x - (n : K) := by
    have : Int.fract x = x - ⌊x⌋ := rfl
    rw [this, hfl]
  have hlo : ¬ (Int.fract x < 1/2) := by rw [hfr']; push_neg; linarith
  have hhi : 1/2 < Int.fract x := by rw [hfr']; linarith
  rw [roundHE, if_neg hlo, if_pos hhi, hfl]

theorem roundHE_eq_of_tie {K : Type*} [LinearOrderedField K] [FloorRing K]
    (x : K) (n : ℤ) (h : x = (n : K) + 1/2) :
    roundHE x = if 2 ∣ n then n else n + 1 := by
  have hfl : ⌊x⌋ = n := by
    rw [Int.floor_eq_iff]
    constructor
    · rw [h]; linarith
    · rw [h]; push_cast; linarith
  have hfr' : Int.fract x = 1/2 := by
    have hd : Int.fract x = x - ⌊x⌋ := rfl
    rw [hd, hfl, h]
    ring
  rw [roundHE, hfr', hfl]
  norm_num

theorem roundFmt_zero (prec : ℕ) (emin : ℤ) : roundFmt prec emin 0 = 0 := by
  simp [roundFmt]

theorem fmtExp_eq (prec : ℕ) (emin : ℤ) (q : ℚ) (e : ℤ)
    (h1 : (2:ℚ) ^ e ≤ |q|) (h2 : |q| < 2 ^ (e + 1)) (hee : emin ≤ e) :
    fmtExp prec emin q = e - ((prec : ℤ) - 1) := by
  rw [fmtExp, ratLog2_unique _ e h1 h2, max_eq_left hee]

theorem fmtExp_eq_sub (prec : ℕ) (emin : ℤ) (q : ℚ) (e : ℤ)
    (h1 : (2:ℚ) ^ e ≤ |q|) (h2 : |q| < 2 ^ (e + 1)) (hee : e ≤ emin) :
    fmtExp prec emin q = emin - ((prec : ℤ) - 1) := by
  rw [fmtExp, ratLog2_unique _ e h1 h2, max_eq_right hee]

theorem roundFmt_eq (prec : ℕ) (emin : ℤ) (q : ℚ) (hq : q ≠ 0) :
    roundFmt prec emin q =
      ((roundHE (q * 2 ^ (-fmtExp prec emin q)) : ℤ) : ℚ) * 2 ^ fmtExp prec emin q := by
  rw [roundFmt, if_neg hq]

theorem intCast_mul_pow_eq (m : ℤ) (t : ℕ) :
    ((m * 2 ^ t : ℤ) : ℚ) = (m : ℚ) * 2 ^ (t : ℤ) := by
  push_cast
  rw [zpow_natCast]

theorem roundFmt_grid_core (prec : ℕ) (emin : ℤ) (m k : ℤ)
    (hm : |m| < 2 ^ prec) (hk : emin - ((prec : ℤ) - 1) ≤ k) :
    roundFmt prec emin ((m : ℚ) * 2 ^ k) = (m : ℚ) * 2 ^ k := by
  by_cases hm0 : m = 0
  · simp [hm0, roundFmt_zero]
  set q : ℚ := (m : ℚ) * 2 ^ k with hqdef
  have hq0 : q ≠ 0 := by
    simp only [hqdef, mul_ne_zero_iff]
    constructor
    · exact_mod_cast hm0
    · positivity
  have habs : |q| = |(m : ℚ)| * 2 ^ k := by
    rw [hqdef, abs_mul, abs_of_pos (by positivity : (0:ℚ) < 2 ^ k)]
  have habs_pos : 0 < |q| := abs_pos.mpr hq0
  -- ratLog2 |q| ≤ k + prec - 1
  have hub : |q| < 2 ^ (k + (prec : ℤ)) := by
    rw [habs]
    have h1 : |(m : ℚ)| < 2 ^ (prec : ℤ) := by
      rw [show ((2:ℚ) ^ (prec : ℤ)) = ((2 ^ prec : ℤ) : ℚ) by push_cast; rw [zpow_natCast]]
      exact_mod_cast hm
    calc |(m : ℚ)| * 2 ^ k < 2 ^ (prec : ℤ) * 2 ^ k := by
          have : (0:ℚ) < 2 ^ k := by positivity
          nlinarith [abs_nonneg ((m : ℚ))]
    _ = 2 ^ (k + (prec : ℤ)) := by
          rw [← zpow_add₀ (by norm_num : (2:ℚ) ≠ 0)]
          congr 1
          omega
  have hlog_ub : ratLog2 |q| ≤ k + (prec : ℤ) - 1 := by
    obtain ⟨hl, _⟩ := ratLog2_correct _ habs_pos
    have : (2:ℚ) ^ ratLog2 |q| < 2 ^ (k + (prec : ℤ)) := lt_of_le_of_lt hl hub
    have := (zpow_lt_zpow_iff_right₀ (by norm_num : (1:ℚ) < 2)).mp this
    omega
  have hE : max (ratLog2 |q|) emin ≤ k + (prec : ℤ) - 1 := by
    apply max_le hlog_ub
    omega
  have hf_le : fmtExp prec emin q ≤ k := by
    rw [fmtExp]
    omega
  -- q * 2 ^ (-fmtExp) is the integer m * 2 ^ (k - fmtExp)
  set f := fmtExp prec emin q with hfdef
  set t : ℕ := (k - f).toNat with htdef
  have htk : (t : ℤ) = k - f := by
    rw [htdef]
    omega
  have hint : q * 2 ^ (-f) = ((m * 2 ^ t : ℤ) : ℚ) := by
    rw [intCast_mul_pow_eq, htk, hqdef]
    rw [mul_assoc, ← zpow_add₀ (by norm_num : (2:ℚ) ≠ 0)]
    rw [sub_eq_add_neg]
  rw [roundFmt_eq _ _ _ hq0, ← hfdef, hint, roundHE_intCast, intCast_mul_pow_eq, htk]
  rw [mul_assoc, ← zpow_add₀ (by norm_num : (2:ℚ) ≠ 0), sub_add_cancel]

theorem roundFmt_grid (prec : ℕ) (emin : ℤ) (hp : 1 ≤ prec) (m k : ℤ)
    (hm : |m| ≤ 2 ^ prec) (hk : emin - ((prec : ℤ) - 1) ≤ k) :
    roundFmt prec emin ((m : ℚ) * 2 ^ k) = (m : ℚ) * 2 ^ k := by
  rcases lt_or_eq_of_le hm with hlt | heq
  · exact roundFmt_grid_core prec emin m k hlt hk
  · -- |m| = 2 ^ prec : restate with mantissa 2^(prec-1) at exponent k+1
    have hcases : m = 2 ^ prec ∨ m = -(2 ^ prec) := abs_eq (by positivity) |>.mp heq
    have hmlt : |(2:ℤ) ^ (prec - 1)| < 2 ^ prec := by
      rw [abs_of_pos (by positivity)]
      exact pow_lt_pow_right₀ (by norm_num) (by omega)
    have hk1 : emin - ((prec : ℤ) - 1) ≤ k + 1 := by omega
    rcases hcases with h | h
    · subst h
      have hps : ((2:ℚ) ^ prec) = 2 ^ (prec - 1) * 2 := by
        rw [← pow_succ]
        congr 1
        omega
      have hrw : (((2:ℤ) ^ prec : ℤ) : ℚ) * 2 ^ k = (((2:ℤ) ^ (prec-1) : ℤ) : ℚ) * 2 ^ (k+1) := by
        push_cast
        rw [zpow_add₀ (by norm_num : (2:ℚ) ≠ 0) k 1, hps]
        ring
      rw [hrw]
      exact roundFmt_grid_core prec emin _ (k+1) hmlt hk1
    · subst h
      have hps : ((2:ℚ) ^ prec) = 2 ^ (prec - 1) * 2 := by
        rw [← pow_succ]
        congr 1
        omega
      have hrw : ((-((2:ℤ) ^ prec) : ℤ) : ℚ) * 2 ^ k
          = ((-((2:ℤ) ^ (prec-1)) : ℤ) : ℚ) * 2 ^ (k+1) := by
        push_cast
        rw [zpow_add₀ (by norm_num : (2:ℚ) ≠ 0) k 1, hps]
        ring
      rw [hrw]
      have hmlt' : |(-((2:ℤ) ^ (prec - 1)))| < 2 ^ prec := by
        rw [abs_neg]
        exact hmlt
      exact roundFmt_grid_core prec emin _ (k+1) hmlt' hk1

theorem fmtExp_ge (prec : ℕ) (emin : ℤ) (q : ℚ) :
    emin - ((prec : ℤ) - 1) ≤ fmtExp prec emin q := by
  rw [fmtExp]
  have := le_max_right (ratLog2 |q|) emin
  omega

theorem abs_lt_two_zpow (emin : ℤ) (q : ℚ) (hq : q ≠ 0) :
    |q| < 2 ^ (max (ratLog2 |q|) emin + 1) := by
  have habs_pos : 0 < |q| := abs_pos.mpr hq
  obtain ⟨_, hu⟩ := ratLog2_correct _ habs_pos
  calc |q| < 2 ^ (ratLog2 |q| + 1) := hu
  _ ≤ 2 ^ (max (ratLog2 |q|) emin + 1) := by
      apply zpow_le_zpow_right₀ (by norm_num)
      have := le_max_left (ratLog2 |q|) emin
      omega

/-- The rounded value is an integer multiple (with mantissa at most `2^prec`
in magnitude) of the grid step `2 ^ fmtExp`. -/
theorem roundFmt_form (prec : ℕ) (emin : ℤ) (q : ℚ) (hq : q ≠ 0) :
    ∃ M : ℤ, roundFmt prec emin q = (M : ℚ) * 2 ^ fmtExp prec emin q ∧ |M| ≤ 2 ^ prec := by
  refine ⟨roundHE (q * 2 ^ (-fmtExp prec emin q)), roundFmt_eq _ _ _ hq, ?_⟩
  set x : ℚ := q * 2 ^ (-fmtExp prec emin q) with hx
  have hxb : |x| < 2 ^ (prec : ℤ) := by
    rw [hx, abs_mul, abs_of_pos (by positivity : (0:ℚ) < 2 ^ (-fmtExp prec emin q))]
    calc |q| * 2 ^ (-fmtExp prec emin q)
        < 2 ^ (max (ratLog2 |q|) emin + 1) * 2 ^ (-fmtExp prec emin q) := by
          have h2 : (0:ℚ) < 2 ^ (-fmtExp prec emin q) := by positivity
          nlinarith [abs_lt_two_zpow emin q hq, abs_nonneg q]
    _ = 2 ^ (prec : ℤ) := by
          rw [← zpow_add₀ (by norm_num : (2:ℚ) ≠ 0)]
          congr 1
          rw [fmtExp]
          ring
  have hround := roundHE_le x
  have hMabs : |((roundHE x : ℤ) : ℚ)| < 2 ^ (prec : ℤ) + 1/2 := by
    calc |((roundHE x : ℤ) : ℚ)| ≤ |((roundHE x : ℤ) : ℚ) - x| + |x| := by
          have := abs_sub_abs_le_abs_sub ((roundHE x : ℤ) : ℚ) x
          have := abs_add (((roundHE x : ℤ) : ℚ) - x) x
          calc |((roundHE x : ℤ) : ℚ)| = |(((roundHE x : ℤ) : ℚ) - x) + x| := by ring_nf
          _ ≤ |((roundHE x : ℤ) : ℚ) - x| + |x| := abs_add _ _
    _ < 2 ^ (prec : ℤ) + 1/2 := by linarith
  have hcast : ((|roundHE x| : ℤ) : ℚ) = |((roundHE x : ℤ) : ℚ)| := by
    push_cast
    rfl
  have h1 : ((|roundHE x| : ℤ) : ℚ) < (((2:ℤ) ^ prec + 1 : ℤ) : ℚ) := by
    rw [hcast]
    push_cast
    calc |((roundHE x : ℤ) : ℚ)| < 2 ^ (prec : ℤ) + 1/2 := hMabs
    _ ≤ 2 ^ prec + 1 := by
        rw [zpow_natCast]
        linarith
  have h2 : |roundHE x| < 2 ^ prec + 1 := by exact_mod_cast h1
  omega

theorem roundFmt_idem (prec : ℕ) (emin : ℤ) (hp : 1 ≤ prec) (q : ℚ) :
    roundFmt prec emin (roundFmt prec emin q) = roundFmt prec emin q := by
  by_cases hq : q = 0
  · rw [hq, roundFmt_zero, roundFmt_zero]
  obtain ⟨M, hMeq, hMle⟩ := roundFmt_form prec emin q hq
  rw [hMeq]
  exact roundFmt_grid prec emin hp M _ hMle (fmtExp_ge prec emin q)

/-- Every binary32 value is exactly representable in binary64: a fixed point
of `roundF32` is a fixed point of `roundF64`. -/
theorem roundF32_fixed_f64 (q : ℚ) (h : roundF32 q = q) : roundF64 q = q := by
  by_cases hq : q = 0
  · rw [hq]
    exact roundFmt_zero _ _
  obtain ⟨M, hMeq, hMle⟩ := roundFmt_form 24 (-126) q hq
  rw [roundF32] at h
  rw [roundF64, ← h, hMeq]
  apply roundFmt_grid 53 (-1022) (by norm_num) M _ _ _
  · calc |M| ≤ 2 ^ 24 := hMle
    _ ≤ 2 ^ 53 := by norm_num
  · have := fmtExp_ge 24 (-126) q
    omega

theorem roundFmt_err (prec : ℕ) (emin : ℤ) (q : ℚ) (hq : q ≠ 0) :
    |roundFmt prec emin q - q| ≤ 2 ^ (fmtExp prec emin q - 1) := by
  rw [roundFmt_eq _ _ _ hq]
  set f := fmtExp prec emin q with hf
  set x : ℚ := q * 2 ^ (-f) with hx
  have hq' : q = x * 2 ^ f := by
    rw [hx, mul_assoc, ← zpow_add₀ (by norm_num : (2:ℚ) ≠ 0), neg_add_cancel, zpow_zero,
      mul_one]
  have h2 : (0:ℚ) < 2 ^ f := by positivity
  calc |((roundHE x : ℤ) : ℚ) * 2 ^ f - q| = |((roundHE x : ℤ) : ℚ) - x| * 2 ^ f := by
        rw [hq', ← sub_mul, abs_mul, abs_of_pos h2]
  _ ≤ (1/2) * 2 ^ f := by
        have := roundHE_le x
        nlinarith
  _ = 2 ^ (f - 1) := by
        rw [zpow_sub₀ (by norm_num : (2:ℚ) ≠ 0)]
        ring

/-- Relative error of rounding in the normal range: at most `2 ^ (-prec)`. -/
theorem roundFmt_rel_err (prec : ℕ) (emin : ℤ) (q : ℚ)
    (h : (2:ℚ) ^ emin ≤ |q|) :
    |roundFmt prec emin q - q| ≤ |q| * 2 ^ (-(prec : ℤ)) := by
  have hq : q ≠ 0 := by
    intro h0
    rw [h0, abs_zero] at h
    have : (0:ℚ) < 2 ^ emin := by positivity
    linarith
  have habs_pos : 0 < |q| := abs_pos.mpr hq
  have hlog_ge : emin ≤ ratLog2 |q| := by
    obtain ⟨_, hu⟩ := ratLog2_correct _ habs_pos
    have : (2:ℚ) ^ emin < 2 ^ (ratLog2 |q| + 1) := lt_of_le_of_lt h hu
    have := (zpow_lt_zpow_iff_right₀ (by norm_num : (1:ℚ) < 2)).mp this
    omega
  have hfmt : fmtExp prec emin q = ratLog2 |q| - ((prec : ℤ) - 1) := by
    rw [fmtExp, max_eq_left hlog_ge]
  calc |roundFmt prec emin q - q| ≤ 2 ^ (fmtExp prec emin q - 1) := roundFmt_err _ _ _ hq
  _ = 2 ^ ratLog2 |q| * 2 ^ (-(prec : ℤ)) := by
      rw [hfmt, ← zpow_add₀ (by norm_num : (2:ℚ) ≠ 0)]
      congr 1
      ring
  _ ≤ |q| * 2 ^ (-(prec : ℤ)) := by
      obtain ⟨hl, _⟩ := ratLog2_correct _ habs_pos
      have h2 : (0:ℚ) < 2 ^ (-(prec : ℤ)) := by positivity
      nlinarith

theorem natToLE_length (w n : ℕ) : (natToLE w n).length = w := by
  induction w generalizing n with
  | zero => rfl
  | succ w ih => simp [natToLE, ih]

theorem natFromLE_natToLE (w n : ℕ) (h : n < 2 ^ (8 * w)) :
    natFromLE (natToLE w n) = n := by
  induction w generalizing n with
  | zero =>
    simp only [Nat.mul_zero, pow_zero] at h
    interval_cases n
    rfl
  | succ w ih =>
    have hdiv : n / 256 < 2 ^ (8 * w) := by
      have h8 : 8 * (w + 1) = 8 * w + 8 := by ring
      rw [h8, pow_add] at h
      have : (2:ℕ) ^ 8 = 256 := by norm_num
      rw [this] at h
      omega
    simp only [natToLE, natFromLE, ih (n / 256) hdiv]
    omega

theorem valFmt_zero (prec : ℕ) (emin : ℤ) (we : ℕ) : valFmt prec emin we 0 = 0 := by
  simp [valFmt]

/-- `roundFmt` written with the sign and scaled significand of the bit-level
encoding. -/
theorem roundFmt_sign_mant (prec : ℕ) (emin : ℤ) (q : ℚ) (hq : q ≠ 0) :
    roundFmt prec emin q = (if q < 0 then (-1:ℚ) else 1)
      * (bitsMant0 prec emin q : ℚ) * 2 ^ (bitsExp0 emin q - ((prec : ℤ) - 1)) := by
  have hfmt : fmtExp prec emin q = bitsExp0 emin q - ((prec : ℤ) - 1) := rfl
  rw [roundFmt_eq _ _ _ hq, hfmt]
  rcases lt_or_gt_of_ne hq with hneg | hpos
  · have habs : |q| = -q := abs_of_neg hneg
    have harg : q * 2 ^ (-(bitsExp0 emin q - ((prec : ℤ) - 1)))
        = -(|q| * 2 ^ (((prec : ℤ) - 1) - bitsExp0 emin q)) := by
      rw [habs]
      rw [show -(bitsExp0 emin q - ((prec : ℤ) - 1)) = ((prec : ℤ) - 1) - bitsExp0 emin q
        by ring]
      ring
    rw [harg, roundHE_neg, if_pos hneg, bitsMant0]
    push_cast
    ring
  · have habs : |q| = q := abs_of_pos hpos
    have harg : q * 2 ^ (-(bitsExp0 emin q - ((prec : ℤ) - 1)))
        = |q| * 2 ^ (((prec : ℤ) - 1) - bitsExp0 emin q) := by
      rw [habs]
      rw [show -(bitsExp0 emin q - ((prec : ℤ) - 1)) = ((prec : ℤ) - 1) - bitsExp0 emin q
        by ring]
    rw [harg, if_neg (by linarith), bitsMant0]
    ring

/-- Renormalisation does not change the encoded value. -/
theorem bitsMant_exp_value (prec : ℕ) (emin : ℤ) (hp : 1 ≤ prec) (q : ℚ) :
    (bitsMant prec emin q : ℚ) * 2 ^ (bitsExp prec emin q - ((prec : ℤ) - 1))
      = (bitsMant0 prec emin q : ℚ) * 2 ^ (bitsExp0 emin q - ((prec : ℤ) - 1)) := by
  by_cases hre : bitsMant0 prec emin q = 2 ^ prec
  · rw [bitsMant, bitsExp, if_pos hre, if_pos hre, hre]
    push_cast
    rw [← zpow_natCast (2:ℚ) (prec - 1), ← zpow_natCast (2:ℚ) prec,
      ← zpow_add₀ (by norm_num : (2:ℚ) ≠ 0), ← zpow_add₀ (by norm_num : (2:ℚ) ≠ 0)]
    congr 1
    omega
  · rw [bitsMant, bitsExp, if_neg hre, if_neg hre]

theorem int_le_of_cast_le_add_half (M N : ℤ) (h : (M : ℚ) ≤ (N : ℚ) + 1/2) :
    M ≤ N := by
  by_contra hc
  push_neg at hc
  have h1 : ((N + 1 : ℤ) : ℚ) ≤ (M : ℚ) := by exact_mod_cast hc
  push_cast at h1
  linarith

theorem int_ge_of_cast_ge_sub_half (M N : ℤ) (h : (N : ℚ) - 1/2 ≤ (M : ℚ)) :
    N ≤ M := by
  have := int_le_of_cast_le_add_half N M (by linarith)
  omega

/-- Extraction of the mantissa, exponent and sign fields from a packed IEEE
bit pattern. -/
theorem field_extract (s ef mant A E : ℕ) (hA : 0 < A) (hE : 0 < E)
    (hmant : mant < A) (hef : ef < E) (hs : s ≤ 1) :
    (s * (E * A) + ef * A + mant) % A = mant
    ∧ (s * (E * A) + ef * A + mant) / A % E = ef
    ∧ (s * (E * A) + ef * A + mant) / (A * E) % 2 = s := by
  have hform : s * (E * A) + ef * A + mant = A * (s * E + ef) + mant := by ring
  have hform2 : s * (E * A) + ef * A + mant = mant + (s * E + ef) * A := by ring
  have hmod : (s * (E * A) + ef * A + mant) % A = mant := by
    rw [hform, Nat.mul_add_mod, Nat.mod_eq_of_lt hmant]
  have hdivA : (s * (E * A) + ef * A + mant) / A = s * E + ef := by
    rw [hform2, Nat.add_mul_div_right _ _ hA, Nat.div_eq_of_lt hmant]
    omega
  refine ⟨hmod, ?_, ?_⟩
  · rw [hdivA, show s * E + ef = E * s + ef by ring, Nat.mul_add_mod,
      Nat.mod_eq_of_lt hef]
  · rw [← Nat.div_div_eq_div_mul, hdivA, show s * E + ef = ef + s * E by ring,
      Nat.add_mul_div_right _ _ hE, Nat.div_eq_of_lt hef]
    have : s % 2 = s := Nat.mod_eq_of_lt (by omega)
    omega

/-- Shared bounds on the renormalised mantissa and exponent of the bit-level
encoding, for values of magnitude at most the format's largest finite
value. -/
theorem bits_analysis (prec : ℕ) (emin : ℤ) (we : ℕ)
    (hp : 1 ≤ prec) (hwe : 2 ≤ we) (q : ℚ)
    (hq : |q| ≤ maxFmt prec emin we) (hq0 : q ≠ 0) :
    0 ≤ bitsMant prec emin q
    ∧ bitsMant prec emin q < 2 ^ prec
    ∧ emin ≤ bitsExp prec emin q
    ∧ bitsExp prec emin q ≤ emin + 2 ^ we - 3
    ∧ (bitsMant prec emin q < 2 ^ (prec - 1) →
        bitsExp prec emin q = emin ∧ bitsMant prec emin q = bitsMant0 prec emin q
          ∧ bitsExp0 emin q = emin) := by
  have hapos : 0 < |q| := abs_pos.mpr hq0
  set emax : ℤ := emin + 2 ^ we - 3 with hemax
  have hwe4 : (4:ℤ) ≤ 2 ^ we := by
    calc (4:ℤ) = 2 ^ 2 := by norm_num
    _ ≤ 2 ^ we := pow_le_pow_right₀ (by norm_num) hwe
  have hminmax : emin + 1 ≤ emax := by omega
  set e := bitsExp0 emin q with he
  have he_ge : emin ≤ e := le_max_right _ _
  set x : ℚ := |q| * 2 ^ (((prec : ℤ) - 1) - e) with hx
  have hxpos : 0 < x := by
    rw [hx]
    positivity
  have hm0x : (bitsMant0 prec emin q : ℚ) = ((roundHE x : ℤ) : ℚ) := by
    rw [bitsMant0]
  have hround := roundHE_le x
  have hm0_nonneg : 0 ≤ bitsMant0 prec emin q := by
    have h1 : ((0:ℤ) : ℚ) - 1/2 ≤ ((bitsMant0 prec emin q : ℤ) : ℚ) := by
      rw [hm0x]
      have := abs_le.mp hround
      push_cast
      linarith
    exact int_ge_of_cast_ge_sub_half _ _ h1
  -- upper bound on x
  have hub_q : |q| < 2 ^ (e + 1) := abs_lt_two_zpow emin q hq0
  have hx_ub : x < 2 ^ (prec : ℤ) := by
    rw [hx]
    calc |q| * 2 ^ (((prec : ℤ) - 1) - e) < 2 ^ (e + 1) * 2 ^ (((prec : ℤ) - 1) - e) := by
          have h2 : (0:ℚ) < 2 ^ (((prec : ℤ) - 1) - e) := by positivity
          nlinarith [abs_nonneg q]
    _ = 2 ^ (prec : ℤ) := by
          rw [← zpow_add₀ (by norm_num : (2:ℚ) ≠ 0)]
          congr 1
          ring
  have hm0_ub : bitsMant0 prec emin q ≤ 2 ^ prec := by
    apply int_le_of_cast_le_add_half
    rw [hm0x]
    have := abs_le.mp hround
    have hcast : (((2:ℤ) ^ prec : ℤ) : ℚ) = 2 ^ (prec : ℤ) := by
      push_cast
      rw [zpow_natCast]
    rw [hcast]
    linarith
  -- bound the exponent by emax
  have hmax_lt : maxFmt prec emin we < 2 ^ (emax + 1) := by
    rw [maxFmt, ← hemax]
    have h1 : (2 ^ prec - 1 : ℚ) < 2 ^ (prec : ℤ) := by
      rw [zpow_natCast]
      have : (0:ℚ) < 2 ^ prec := by positivity
      linarith
    have h2 : (0:ℚ) < 2 ^ (emax - ((prec : ℤ) - 1)) := by positivity
    calc (2 ^ prec - 1 : ℚ) * 2 ^ (emax - ((prec : ℤ) - 1))
        < 2 ^ (prec : ℤ) * 2 ^ (emax - ((prec : ℤ) - 1)) := by nlinarith
    _ = 2 ^ (emax + 1) := by
        rw [← zpow_add₀ (by norm_num : (2:ℚ) ≠ 0)]
        congr 1
        ring
  have hlog_le : ratLog2 |q| ≤ emax := by
    obtain ⟨hl, _⟩ := ratLog2_correct _ hapos
    have : (2:ℚ) ^ ratLog2 |q| < 2 ^ (emax + 1) :=
      lt_of_le_of_lt hl (lt_of_le_of_lt hq hmax_lt)
    have := (zpow_lt_zpow_iff_right₀ (by norm_num : (1:ℚ) < 2)).mp this
    omega
  have he_le : e ≤ emax := max_le hlog_le (by omega)
  -- at the top exponent the mantissa cannot overflow
  have htop : e = emax → bitsMant0 prec emin q ≤ 2 ^ prec - 1 := by
    intro hee
    have hx_le : x ≤ (2 ^ prec - 1 : ℚ) := by
      rw [hx, hee]
      calc |q| * 2 ^ (((prec : ℤ) - 1) - emax)
          ≤ ((2 ^ prec - 1 : ℚ) * 2 ^ (emax - ((prec : ℤ) - 1)))
            * 2 ^ (((prec : ℤ) - 1) - emax) := by
            have h2 : (0:ℚ) < 2 ^ (((prec : ℤ) - 1) - emax) := by positivity
            rw [maxFmt, ← hemax] at hq
            nlinarith
      _ = (2 ^ prec - 1 : ℚ) := by
            rw [mul_assoc, ← zpow_add₀ (by norm_num : (2:ℚ) ≠ 0)]
            rw [show emax - ((prec : ℤ) - 1) + (((prec : ℤ) - 1) - emax) = 0 by ring]
            rw [zpow_zero, mul_one]
    apply int_le_of_cast_le_add_half
    rw [hm0x]
    have := abs_le.mp hround
    have hcast : (((2:ℤ) ^ prec - 1 : ℤ) : ℚ) = (2 ^ prec - 1 : ℚ) := by
      push_cast
      ring
    rw [hcast]
    linarith
  -- renormalisation case split
  by_cases hre : bitsMant0 prec emin q = 2 ^ prec
  · have hm : bitsMant prec emin q = 2 ^ (prec - 1) := by rw [bitsMant, if_pos hre]
    have he2 : bitsExp prec emin q = e + 1 := by rw [bitsExp, if_pos hre, he]
    have hene : e ≠ emax := by
      intro hee
      have := htop hee
      omega
    have h2p : (2:ℤ) ^ prec = 2 * 2 ^ (prec - 1) := by
      rw [← pow_succ']
      congr 1
      omega
    refine ⟨by rw [hm]; positivity, ?_, ?_, ?_, ?_⟩
    · rw [hm]
      exact pow_lt_pow_right₀ one_lt_two (by omega)
    · rw [he2]
      linarith [he_ge]
    · rw [he2]
      have h5 : e < emax := lt_of_le_of_ne he_le hene
      exact Int.add_one_le_iff.mpr h5
    · intro hlt
      rw [hm] at hlt
      omega
  · have hm : bitsMant prec emin q = bitsMant0 prec emin q := by rw [bitsMant, if_neg hre]
    have he2 : bitsExp prec emin q = e := by rw [bitsExp, if_neg hre, he]
    refine ⟨by rw [hm]; exact hm0_nonneg, ?_, by rw [he2]; exact he_ge,
      by rw [he2]; exact he_le, ?_⟩
    · rw [hm]
      omega
    -- subnormal: small mantissa forces the clamped exponent
    intro hlt
    have hemin : e = emin := by
      rcases le_or_lt (ratLog2 |q|) emin with hcle | hcgt
      · rw [he, bitsExp0, max_eq_right hcle]
      · exfalso
        have helog : e = ratLog2 |q| := by
          rw [he, bitsExp0, max_eq_left (le_of_lt hcgt)]
        obtain ⟨hl, _⟩ := ratLog2_correct _ hapos
        have hx_ge : (2:ℚ) ^ ((prec : ℤ) - 1) ≤ x := by
          rw [hx, helog]
          calc (2:ℚ) ^ ((prec : ℤ) - 1)
              = 2 ^ ratLog2 |q| * 2 ^ (((prec : ℤ) - 1) - ratLog2 |q|) := by
                rw [← zpow_add₀ (by norm_num : (2:ℚ) ≠ 0)]
                congr 1
                ring
          _ ≤ |q| * 2 ^ (((prec : ℤ) - 1) - ratLog2 |q|) := by
                have h2 : (0:ℚ) < 2 ^ (((prec : ℤ) - 1) - ratLog2 |q|) := by positivity
                nlinarith
        have hm0_ge : (2:ℤ) ^ (prec - 1) ≤ bitsMant0 prec emin q := by
          apply int_ge_of_cast_ge_sub_half
          rw [hm0x]
          have := abs_le.mp hround
          have hcast : (((2:ℤ) ^ (prec - 1) : ℤ) : ℚ) = 2 ^ ((prec : ℤ) - 1) := by
            push_cast
            rw [← zpow_natCast]
            congr 1
            omega
          rw [hcast]
          linarith
        rw [hm] at hlt
        omega
    exact ⟨by rw [he2]; exact hemin, hm, hemin⟩

/-- Decoding the IEEE bit pattern of `q` recovers exactly the rounded value
of `q`. -/
theorem valFmt_bitsFmt (prec : ℕ) (emin : ℤ) (we : ℕ)
    (hp : 1 ≤ prec) (hwe : 2 ≤ we) (q : ℚ) (hq : |q| ≤ maxFmt prec emin we) :
    valFmt prec emin we (bitsFmt prec emin we q) = roundFmt prec emin q := by
  by_cases hq0 : q = 0
  · rw [hq0, roundFmt_zero, show bitsFmt prec emin we 0 = 0 by rw [bitsFmt, if_pos rfl]]
    exact valFmt_zero _ _ _
  obtain ⟨hm_nonneg, hm_lt, hbe_ge, hbe_le, hsub⟩ :=
    bits_analysis prec emin we hp hwe q hq hq0
  have hApos : (0:ℕ) < 2 ^ (prec - 1) := by positivity
  have hEpos : (0:ℕ) < 2 ^ we := by positivity
  have hsle : bitsSign q ≤ 1 := by
    rw [bitsSign]
    split_ifs <;> omega
  have hcastA : (((2:ℕ) ^ (prec - 1) : ℕ) : ℤ) = (2:ℤ) ^ (prec - 1) := by push_cast; ring
  have hcastE : (((2:ℕ) ^ we : ℕ) : ℤ) = (2:ℤ) ^ we := by push_cast; ring
  have h2p : (2:ℤ) ^ prec = 2 * 2 ^ (prec - 1) := by
    rw [← pow_succ']
    congr 1
    omega
  have hsgn_eq : (if bitsSign q = 1 then (-1:ℚ) else 1) = if q < 0 then (-1:ℚ) else 1 := by
    by_cases hqneg : q < 0
    · simp [bitsSign, hqneg]
    · simp [bitsSign, hqneg]
  have hvalue : (if q < 0 then (-1:ℚ) else 1) * ((bitsMant prec emin q : ℤ) : ℚ)
      * 2 ^ (bitsExp prec emin q - ((prec:ℤ) - 1)) = roundFmt prec emin q := by
    rw [roundFmt_sign_mant prec emin q hq0, mul_assoc, mul_assoc,
      bitsMant_exp_value prec emin hp q]
  rw [bitsFmt, if_neg hq0]
  by_cases hbr : bitsMant prec emin q < 2 ^ (prec - 1)
  · -- subnormal / zero-mantissa branch: biased exponent field is 0
    rw [if_pos hbr]
    obtain ⟨hexp_emin, hmm0, hexp0⟩ := hsub hbr
    have hmantlt : (bitsMant prec emin q).toNat < 2 ^ (prec - 1) := by omega
    have hshape : bitsSign q * 2 ^ (we + (prec - 1)) + (bitsMant prec emin q).toNat
        = bitsSign q * (2 ^ we * 2 ^ (prec - 1)) + 0 * 2 ^ (prec - 1)
          + (bitsMant prec emin q).toNat := by
      rw [pow_add]
      ring
    rw [hshape]
    obtain ⟨hx1, hx2, hx3⟩ := field_extract (bitsSign q) 0 ((bitsMant prec emin q).toNat)
      (2 ^ (prec - 1)) (2 ^ we) hApos hEpos hmantlt hEpos hsle
    simp only [valFmt, pow_add]
    rw [hx1, hx2, hx3, if_pos rfl, hsgn_eq]
    have hcastm : (((bitsMant prec emin q).toNat : ℕ) : ℚ)
        = ((bitsMant prec emin q : ℤ) : ℚ) := by
      have : (((bitsMant prec emin q).toNat : ℕ) : ℤ) = bitsMant prec emin q := by omega
      exact_mod_cast congrArg (fun z : ℤ => (z : ℚ)) this
    rw [hcastm]
    rw [hexp_emin] at hvalue
    exact hvalue
  · -- normal branch
    rw [if_neg hbr]
    push_neg at hbr
    have hefz_pos : 1 ≤ bitsExp prec emin q - emin + 1 := by omega
    have hef_lt : (bitsExp prec emin q - emin + 1).toNat < 2 ^ we := by omega
    have hef_ne : ¬ ((bitsExp prec emin q - emin + 1).toNat = 0) := by omega
    have hmant_lt : (bitsMant prec emin q - 2 ^ (prec - 1)).toNat < 2 ^ (prec - 1) := by
      omega
    have hshape : bitsSign q * 2 ^ (we + (prec - 1))
          + (bitsExp prec emin q - emin + 1).toNat * 2 ^ (prec - 1)
          + (bitsMant prec emin q - 2 ^ (prec - 1)).toNat
        = bitsSign q * (2 ^ we * 2 ^ (prec - 1))
          + (bitsExp prec emin q - emin + 1).toNat * 2 ^ (prec - 1)
          + (bitsMant prec emin q - 2 ^ (prec - 1)).toNat := by
      rw [pow_add]
    rw [hshape]
    obtain ⟨hx1, hx2, hx3⟩ := field_extract (bitsSign q)
      ((bitsExp prec emin q - emin + 1).toNat)
      ((bitsMant prec emin q - 2 ^ (prec - 1)).toNat)
      (2 ^ (prec - 1)) (2 ^ we) hApos hEpos hmant_lt hef_lt hsle
    simp only [valFmt, pow_add]
    rw [hx1, hx2, hx3, if_neg hef_ne, hsgn_eq]
    have hcastm : ((2 ^ (prec - 1) + (bitsMant prec emin q - 2 ^ (prec - 1)).toNat : ℕ) : ℚ)
        = ((bitsMant prec emin q : ℤ) : ℚ) := by
      have : ((2 ^ (prec - 1) + (bitsMant prec emin q - 2 ^ (prec - 1)).toNat : ℕ) : ℤ)
          = bitsMant prec emin q := by
        push_cast
        omega
      exact_mod_cast congrArg (fun z : ℤ => (z : ℚ)) this
    have hcaste : emin - (prec : ℤ) + (((bitsExp prec emin q - emin + 1).toNat : ℕ) : ℤ)
        = bitsExp prec emin q - ((prec : ℤ) - 1) := by omega
    rw [hcastm, hcaste]
    exact hvalue

/-- The encoded bit pattern fits in `1 + we + (prec - 1)` bits. -/
theorem bitsFmt_lt (prec : ℕ) (emin : ℤ) (we : ℕ)
    (hp : 1 ≤ prec) (hwe : 2 ≤ we) (q : ℚ) (hq : |q| ≤ maxFmt prec emin we) :
    bitsFmt prec emin we q < 2 ^ (1 + we + (prec - 1)) := by
  by_cases hq0 : q = 0
  · rw [bitsFmt, if_pos hq0]
    positivity
  obtain ⟨hm_nonneg, hm_lt, hbe_ge, hbe_le, hsub⟩ :=
    bits_analysis prec emin we hp hwe q hq hq0
  have hsle : bitsSign q ≤ 1 := by
    rw [bitsSign]
    split_ifs <;> omega
  have hP2 : (2:ℕ) ^ (1 + we + (prec - 1)) = 2 * 2 ^ (we + (prec - 1)) := by
    rw [show 1 + we + (prec - 1) = (we + (prec - 1)) + 1 by ring, pow_succ]
    ring
  have hPsplit : (2:ℕ) ^ (we + (prec - 1)) = 2 ^ we * 2 ^ (prec - 1) := pow_add 2 we _
  have hA_le_P : (2:ℕ) ^ (prec - 1) ≤ 2 ^ (we + (prec - 1)) :=
    pow_le_pow_right₀ (by norm_num) (by omega)
  have hs01 : bitsSign q = 0 ∨ bitsSign q = 1 := by omega
  rw [bitsFmt, if_neg hq0]
  by_cases hbr : bitsMant prec emin q < 2 ^ (prec - 1)
  · rw [if_pos hbr]
    have hcastA : (((2:ℕ) ^ (prec - 1) : ℕ) : ℤ) = (2:ℤ) ^ (prec - 1) := by
      push_cast
      ring
    have hmantlt : (bitsMant prec emin q).toNat < 2 ^ (prec - 1) := by omega
    rcases hs01 with hs | hs <;> rw [hs] <;> omega
  · rw [if_neg hbr]
    push_neg at hbr
    have hcastA : (((2:ℕ) ^ (prec - 1) : ℕ) : ℤ) = (2:ℤ) ^ (prec - 1) := by
      push_cast
      ring
    have hcastE : (((2:ℕ) ^ we : ℕ) : ℤ) = (2:ℤ) ^ we := by push_cast; ring
    have hef_le : (bitsExp prec emin q - emin + 1).toNat ≤ 2 ^ we - 2 := by
      omega
    have h2p : (2:ℤ) ^ prec = 2 * 2 ^ (prec - 1) := by
      rw [← pow_succ']
      congr 1
      omega
    have hmant_lt : (bitsMant prec emin q - 2 ^ (prec - 1)).toNat < 2 ^ (prec - 1) := by
      omega
    have hef_mul : (bitsExp prec emin q - emin + 1).toNat * 2 ^ (prec - 1)
        ≤ (2 ^ we - 2) * 2 ^ (prec - 1) :=
      Nat.mul_le_mul_right _ hef_le
    have h4 : (4:ℕ) ≤ 2 ^ we := by
      calc (4:ℕ) = 2 ^ 2 := by norm_num
      _ ≤ 2 ^ we := pow_le_pow_right₀ (by norm_num) hwe
    have hsum : (2 ^ we - 2) * 2 ^ (prec - 1) + 2 ^ (prec - 1) ≤ 2 ^ we * 2 ^ (prec - 1) := by
      have hstep : (2 ^ we - 2) + 1 ≤ 2 ^ we := by omega
      calc (2 ^ we - 2) * 2 ^ (prec - 1) + 2 ^ (prec - 1)
          = ((2 ^ we - 2) + 1) * 2 ^ (prec - 1) := by ring
      _ ≤ 2 ^ we * 2 ^ (prec - 1) := Nat.mul_le_mul_right _ hstep
    rcases hs01 with hs | hs <;> rw [hs] <;> omega

theorem initV_num (c : VClass) (x y : ℚ) :
    initV c (.num x) (.num y) = some (mkV c x y) := rfl

/-- `format(value, spec)` on one numeric component, for the format specs the
development observes (`''` and `'.2f'`); other specs yield a sentinel no
theorem relies on. -/

theorem roundF64_idem (x : ℚ) : roundF64 (roundF64 x) = roundF64 x :=
  roundFmt_idem 53 (-1022) (by norm_num) x

theorem roundF32_idem (x : ℚ) : roundF32 (roundF32 x) = roundF32 x :=
  roundFmt_idem 24 (-126) (by norm_num) x

theorem castVals_two (tc : Char) (htc : tc = 'd' ∨ tc = 'f') (b1 b2 : List ℕ)
    (h1 : b1.length = itemsize tc) (h2 : b2.length = itemsize tc) :
    castVals tc (b1 ++ b2)
      = some [valOfBits tc (natFromLE b1), valOfBits tc (natFromLE b2)] := by
  have hws : itemsize tc = 8 ∨ itemsize tc = 4 := by
    rcases htc with h | h <;> subst h
    · left
      decide
    · right
      decide
  have hlen : (b1 ++ b2).length = 2 * itemsize tc := by
    rw [List.length_append, h1, h2]
    ring
  have hmod : (b1 ++ b2).length % itemsize tc = 0 := by
    rw [hlen]
    rcases hws with h | h <;> rw [h]
  have hdiv : (b1 ++ b2).length / itemsize tc = 2 := by
    rw [hlen]
    rcases hws with h | h <;> rw [h]
  rw [castVals, if_pos ⟨htc, hmod⟩, hdiv]
  have hrange : List.range 2 = [0, 1] := by decide
  rw [hrange]
  simp only [List.map_cons, List.map_nil]
  have e0 : ((b1 ++ b2).drop (0 * itemsize tc)).take (itemsize tc) = b1 := by
    rw [Nat.zero_mul, List.drop_zero, ← h1]
    exact List.take_left b1 b2
  have e1 : (b1 ++ b2).drop (1 * itemsize tc) = b2 := by
    rw [Nat.one_mul, ← h1]
    exact List.drop_left b1 b2
  have e1' : ((b1 ++ b2).drop (1 * itemsize tc)).take (itemsize tc) = b2 := by
    rw [e1, ← h2]
    exact List.take_length b2
  rw [e0, e1']

theorem typecode_base_toNat : ('d').toNat = 100 := by decide

theorem typecode_short_toNat : ('f').toNat = 102 := by decide

theorem charOfNat_100 : Char.ofNat 100 = 'd' := by decide

theorem charOfNat_102 : Char.ofNat 102 = 'f' := by decide

/-- Decoding, invoked on any class `c'`, of the encoding of a base-class
vector with finite coordinates recovers the coordinates exactly. -/
theorem frombytes_bytesV_base (c' : VClass) (x y : ℚ)
    (hx : |roundF64 x| ≤ maxF64) (hy : |roundF64 y| ≤ maxF64) :
    frombytes c' (bytesV (mkV VClass.base x y)) = some ⟨c', roundF64 x, roundF64 y⟩ := by
  have hpack : ∀ z : ℚ, |roundF64 z| ≤ maxF64 →
      valOfBits 'd' (natFromLE (packFloat 'd' (roundF64 z))) = roundF64 z := by
    intro z hz
    rw [packFloat, if_neg (by decide), valOfBits, if_neg (by decide)]
    rw [natFromLE_natToLE 8 _ (by
      have := bitsFmt_lt 53 (-1022) 11 (by norm_num) (by norm_num) (roundF64 z) hz
      norm_num at this ⊢
      exact this)]
    rw [valFmt_bitsFmt 53 (-1022) 11 (by norm_num) (by norm_num) (roundF64 z) hz]
    exact roundF64_idem z
  have hlen : ∀ z : ℚ, (packFloat 'd' z).length = itemsize 'd' := by
    intro z
    rw [packFloat, if_neg (by decide), itemsize, if_neg (by decide), natToLE_length]
  rw [bytesV, frombytes]
  simp only [mkV, typecode]
  rw [show ('d').toNat = 100 from rfl, charOfNat_100]
  rw [castVals_two 'd' (Or.inl rfl) _ _ (hlen _) (hlen _)]
  rw [hpack x hx, hpack y hy]
  show initV c' (.num (roundF64 x)) (.num (roundF64 y))
    = some ⟨c', roundF64 x, roundF64 y⟩
  rw [initV_num, mkV, roundF64_idem, roundF64_idem]

/-- Decoding, invoked on any class `c'`, of the encoding of a
`ShortVector2d` recovers the coordinates narrowed to binary32. -/
theorem frombytes_bytesV_short (c' : VClass) (x y : ℚ)
    (hx : |roundF64 x| ≤ maxF32) (hy : |roundF64 y| ≤ maxF32) :
    frombytes c' (bytesV (mkV VClass.short x y))
      = some ⟨c', roundF32 (roundF64 x), roundF32 (roundF64 y)⟩ := by
  have hpack : ∀ z : ℚ, |roundF64 z| ≤ maxF32 →
      valOfBits 'f' (natFromLE (packFloat 'f' (roundF64 z))) = roundF32 (roundF64 z) := by
    intro z hz
    rw [packFloat, if_pos rfl, valOfBits, if_pos rfl]
    rw [natFromLE_natToLE 4 _ (by
      have := bitsFmt_lt 24 (-126) 8 (by norm_num) (by norm_num) (roundF64 z) hz
      norm_num at this ⊢
      exact this)]
    exact valFmt_bitsFmt 24 (-126) 8 (by norm_num) (by norm_num) (roundF64 z) hz
  have hlen : ∀ z : ℚ, (packFloat 'f' z).length = itemsize 'f' := by
    intro z
    rw [packFloat, if_pos rfl, itemsize, if_pos rfl, natToLE_length]
  rw [bytesV, frombytes]
  simp only [mkV, typecode]
  rw [show ('f').toNat = 102 from rfl, charOfNat_102]
  rw [castVals_two 'f' (Or.inr rfl) _ _ (hlen _) (hlen _)]
  rw [hpack x hx, hpack y hy]
  show initV c' (.num (roundF32 (roundF64 x))) (.num (roundF32 (roundF64 y)))
    = some ⟨c', roundF32 (roundF64 x), roundF32 (roundF64 y)⟩
  rw [initV_num, mkV]
  rw [roundF32_fixed_f64 _ (roundF32_idem (roundF64 x)),
    roundF32_fixed_f64 _ (roundF32_idem (roundF64 y))]

/-! ## Concrete evaluations -/

theorem roundFmt_eval (prec : ℕ) (emin : ℤ) (q : ℚ) (e m : ℤ) (hq0 : q ≠ 0)
    (h1 : (2:ℚ) ^ e ≤ |q|) (h2 : |q| < 2 ^ (e + 1)) (hee : emin ≤ e)
    (hm : roundHE (q * 2 ^ (((prec : ℤ) - 1) - e)) = m) :
    roundFmt prec emin q = (m : ℚ) * 2 ^ (e - ((prec : ℤ) - 1)) := by
  have hfe : fmtExp prec emin q = e - ((prec : ℤ) - 1) := fmtExp_eq prec emin q e h1 h2 hee
  rw [roundFmt_eq _ _ _ hq0, hfe,
    show -(e - ((prec : ℤ) - 1)) = ((prec : ℤ) - 1) - e by ring, hm]

theorem roundFmt_eval_sub (prec : ℕ) (emin : ℤ) (q : ℚ) (e m : ℤ) (hq0 : q ≠ 0)
    (h1 : (2:ℚ) ^ e ≤ |q|) (h2 : |q| < 2 ^ (e + 1)) (hee : e ≤ emin)
    (hm : roundHE (q * 2 ^ (((prec : ℤ) - 1) - emin)) = m) :
    roundFmt prec emin q = (m : ℚ) * 2 ^ (emin - ((prec : ℤ) - 1)) := by
  have hfe : fmtExp prec emin q = emin - ((prec : ℤ) - 1) :=
    fmtExp_eq_sub prec emin q e h1 h2 hee
  rw [roundFmt_eq _ _ _ hq0, hfe,
    show -(emin - ((prec : ℤ) - 1)) = ((prec : ℤ) - 1) - emin by ring, hm]

theorem roundF64_int (n : ℤ) (h : |n| ≤ 2 ^ 53) : roundF64 ((n : ℚ)) = (n : ℚ) := by
  have := roundFmt_grid 53 (-1022) (by norm_num) n 0 h (by norm_num)
  rw [zpow_zero, mul_one] at this
  exact this

theorem roundF32_int (n : ℤ) (h : |n| ≤ 2 ^ 24) : roundF32 ((n : ℚ)) = (n : ℚ) := by
  have := roundFmt_grid 24 (-126) (by norm_num) n 0 h (by norm_num)
  rw [zpow_zero, mul_one] at this
  exact this

theorem roundF64_zero : roundF64 0 = 0 := roundFmt_zero _ _

theorem roundF64_one : roundF64 1 = 1 := by
  have := roundF64_int 1 (by norm_num)
  norm_num at this
  exact this

theorem roundF64_two : roundF64 2 = 2 := by
  have := roundF64_int 2 (by norm_num)
  norm_num at this
  exact this

theorem roundF64_three : roundF64 3 = 3 := by
  have := roundF64_int 3 (by norm_num)
  norm_num at this
  exact this

theorem roundF64_four : roundF64 4 = 4 := by
  have := roundF64_int 4 (by norm_num)
  norm_num at this
  exact this

/-- The double nearest to `1/10` (the Python float `0.1`). -/
theorem roundF64_tenth : roundF64 (1/10) = 7205759403792794 * 2 ^ (-56 : ℤ) := by
  rw [roundF64, roundFmt_eval 53 (-1022) (1/10) (-4) 7205759403792794 (by norm_num)
    (by rw [abs_of_pos (by norm_num : (0:ℚ) < 1/10)]; norm_num)
    (by rw [abs_of_pos (by norm_num : (0:ℚ) < 1/10)]; norm_num)
    (by norm_num)
    (roundHE_eq_of_gt_half _ 7205759403792793 (by norm_num) (by norm_num))]
  norm_num

/-- The single-precision value nearest to `1/10`. -/
theorem roundF32_tenth : roundF32 (1/10) = 13421773 * 2 ^ (-27 : ℤ) := by
  rw [roundF32, roundFmt_eval 24 (-126) (1/10) (-4) 13421773 (by norm_num)
    (by rw [abs_of_pos (by norm_num : (0:ℚ) < 1/10)]; norm_num)
    (by rw [abs_of_pos (by norm_num : (0:ℚ) < 1/10)]; norm_num)
    (by norm_num)
    (roundHE_eq_of_gt_half _ 13421772 (by norm_num) (by norm_num))]
  norm_num

theorem roundF64_ne_roundF32_tenth : roundF64 (1/10) ≠ roundF32 (1/10) := by
  rw [roundF64_tenth, roundF32_tenth]
  norm_num

/-- Binary64 represents `2^(-150)` exactly. -/
theorem roundF64_pow150 : roundF64 (2 ^ (-150 : ℤ)) = 2 ^ (-150 : ℤ) := by
  have := roundFmt_grid 53 (-1022) (by norm_num) 1 (-150) (by norm_num) (by norm_num)
  rw [show ((1:ℤ) : ℚ) = 1 by norm_num, one_mul] at this
  exact this

/-- Binary32 flushes `2^(-150)` (half the smallest subnormal) to zero. -/
theorem roundF32_pow150 : roundF32 (2 ^ (-150 : ℤ)) = 0 := by
  rw [roundF32, roundFmt_eval_sub 24 (-126) _ (-150) 0 (by positivity)
    (by rw [abs_of_pos (by positivity)])
    (by rw [abs_of_pos (by positivity)]
        exact zpow_lt_zpow_right₀ (by norm_num) (by norm_num))
    (by norm_num)
    (by
      have harg : (2 : ℚ) ^ (-150 : ℤ) * 2 ^ ((((24:ℕ) : ℤ) - 1) - (-126 : ℤ))
          = ((0:ℤ) : ℚ) + 1/2 := by
        rw [← zpow_add₀ (by norm_num : (2:ℚ) ≠ 0)]
        norm_num
      rw [roundHE_eq_of_tie _ 0 harg]
      norm_num)]
  norm_num

theorem maxF64_eq : maxF64 = (2 ^ 53 - 1) * 2 ^ (971 : ℤ) := by
  rw [maxF64, maxFmt]
  norm_num

theorem maxF32_eq : maxF32 = (2 ^ 24 - 1) * 2 ^ (104 : ℤ) := by
  rw [maxF32, maxFmt]
  norm_num

theorem abs_le_maxF64 (q : ℚ) (h : |q| ≤ 2 ^ 53) : |q| ≤ maxF64 := by
  rw [maxF64_eq]
  calc |q| ≤ 2 ^ 53 := h
  _ ≤ (2 ^ 53 - 1) * 2 ^ (971 : ℤ) := by norm_num

theorem abs_le_maxF32 (q : ℚ) (h : |q| ≤ 2 ^ 24) : |q| ≤ maxF32 := by
  rw [maxF32_eq]
  calc |q| ≤ 2 ^ 24 := h
  _ ≤ (2 ^ 24 - 1) * 2 ^ (104 : ℤ) := by norm_num

/-! ## Formatting evaluations -/

theorem sqrt_two_bounds : (1.41 : ℝ) ≤ Real.sqrt 2 ∧ Real.sqrt 2 < 1.415 := by
  have hnn : (0:ℝ) ≤ Real.sqrt 2 := Real.sqrt_nonneg 2
  have hsq : Real.sqrt 2 ^ 2 = 2 := Real.sq_sqrt (by norm_num)
  constructor
  · nlinarith
  · nlinarith

theorem roundHE_sqrt2_100 : roundHE (Real.sqrt 2 * 100) = 141 := by
  obtain ⟨h1, h2⟩ := sqrt_two_bounds
  apply roundHE_eq_of_lt_half _ 141
  · push_cast
    nlinarith
  · push_cast
    nlinarith

theorem roundHE_pi4_100 : roundHE (Real.pi / 4 * 100) = 79 := by
  have hgt := Real.pi_gt_3141592
  have hlt := Real.pi_lt_315
  have h79 : (78 : ℤ) + 1 = 79 := by norm_num
  rw [← h79]
  apply roundHE_eq_of_gt_half _ 78
  · push_cast
    nlinarith
  · push_cast
    nlinarith

theorem renderFixed2_sqrt2 : renderFixed2 (Real.sqrt 2) = "1.41" := by
  rw [renderFixed2, roundHE_sqrt2_100, if_neg (by norm_num)]
  decide

theorem renderFixed2_pi4 : renderFixed2 (Real.pi / 4) = "0.79" := by
  rw [renderFixed2, roundHE_pi4_100, if_neg (by norm_num)]
  decide

theorem roundHE_real_one : roundHE ((1:ℝ)) = 1 := by
  rw [show (1:ℝ) = ((1:ℤ) : ℝ) by norm_num]
  exact roundHE_intCast 1

theorem roundHE_real_zero : roundHE ((0:ℝ)) = 0 := by
  rw [show (0:ℝ) = ((0:ℤ) : ℝ) by norm_num]
  exact roundHE_intCast 0

theorem renderDefault_one : renderDefault 1 = "1.0" := by
  rw [renderDefault, if_pos (by rw [roundHE_real_one]; norm_num), roundHE_real_one]
  decide

theorem renderDefault_zero : renderDefault 0 = "0.0" := by
  rw [renderDefault, if_pos (by rw [roundHE_real_zero]; norm_num), roundHE_real_zero]
  decide

theorem magV_one_one : magV ⟨VClass.base, 1, 1⟩ = Real.sqrt 2 := by
  rw [magV]
  norm_num

theorem angleV_one_one : angleV ⟨VClass.base, 1, 1⟩ = Real.pi / 4 := by
  rw [angleV, pyAtan2]
  norm_num

/-! ## Equality-comparison helper lemmas -/

theorem listEqPy_two (x y a b : ℚ) :
    listEqPy [x, y] [.num a, .num b] = true ↔ (x = a ∧ y = b) := by
  simp [listEqPy]

theorem listEqPy_len (x y : ℚ) (l : List PyVal) (h : l.length ≠ 2) :
    listEqPy [x, y] l = false := by
  match l with
  | [] => rfl
  | [p] =>
    cases p with
    | num b => simp [listEqPy]
    | str s => rfl
  | [p, q] => simp at h
  | p :: q :: r :: u =>
    cases p with
    | num b =>
      cases q with
      | num b2 => simp [listEqPy]
      | str s2 => simp [listEqPy]
    | str s => rfl

/-! ## Claim theorems -/

/-- C1, counterexample: the claim says `ShortVector2d` coerces its inputs to
single precision at construction time; in fact construction (inherited
unchanged from `Vector2d`) applies the double-precision `float()` to both
variants, so `ShortVector2d(0.1, 0).x` reads back the binary64 value of
`1/10`, which differs from its binary32 rounding. -/
theorem C1_counterexample :
    initV VClass.short (.num (1/10)) (.num 0) = some (mkV VClass.short (1/10) 0)
    ∧ (mkV VClass.short (1/10) 0).x = roundF64 (1/10)
    ∧ roundF64 (1/10) ≠ roundF32 (1/10) :=
  ⟨initV_num _ _ _, rfl, roundF64_ne_roundF32_tenth⟩

/-- C1 (amended): for every pair of numeric inputs, construction coerces both
coordinates with the double-precision `float()` conversion for both the base
`Vector2d` and the derived `ShortVector2d`, and reading back `x` and `y`
yields those double-precision values; the single-precision narrowing of
`ShortVector2d` happens only at serialisation, not at construction. -/
theorem C1_construction_width (c : VClass) (x y : ℚ) :
    initV c (.num x) (.num y) = some ⟨c, roundF64 x, roundF64 y⟩
    ∧ (mkV c x y).x = roundF64 x
    ∧ (mkV c x y).y = roundF64 y :=
  ⟨rfl, rfl, rfl⟩

theorem decode_cross :
    frombytes VClass.short (bytesV (mkV VClass.base 1 2))
      = some ⟨VClass.short, 1, 2⟩ := by
  have hx : |roundF64 (1:ℚ)| ≤ maxF64 := by
    rw [roundF64_one]
    exact abs_le_maxF64 1 (by norm_num)
  have hy : |roundF64 (2:ℚ)| ≤ maxF64 := by
    rw [roundF64_two]
    exact abs_le_maxF64 2 (by norm_num)
  have h := frombytes_bytesV_base VClass.short 1 2 hx hy
  rw [roundF64_one, roundF64_two] at h
  exact h

/-- C3, counterexample: the claim says decoding constructs a vector of the
base type regardless of which class decoding is invoked on; in fact
`frombytes` is a classmethod that builds `cls(*memv)`, so invoking it on
`ShortVector2d` — here on bytes produced by a base `Vector2d` — yields a
`ShortVector2d`, not a base vector. -/
theorem C3_counterexample :
    frombytes VClass.short (bytesV (mkV VClass.base 1 2))
      = some ⟨VClass.short, 1, 2⟩
    ∧ (⟨VClass.short, 1, 2⟩ : Vec).cls ≠ VClass.base :=
  ⟨decode_cross, by decide⟩

/-- C3 (amended): for every well-formed encoding, decoding reads the first
byte to recover the type-code character, reinterprets the remaining bytes as
two consecutive values of the width implied by that type code, and
constructs — via the inherited constructor — a vector of the class decoding
is invoked on (`cls`), regardless of which subclass produced the encoding;
the type-code byte determines only the interpretation width, never the
result class. -/
theorem C3_decode (c' : VClass) (octets : List ℕ) (v : Vec)
    (h : frombytes c' octets = some v) :
    v.cls = c'
    ∧ ∃ t rest a b, octets = t :: rest
        ∧ castVals (Char.ofNat t) rest = some [a, b]
        ∧ v = ⟨c', roundF64 a, roundF64 b⟩ := by
  match octets with
  | [] => exact Option.noConfusion h
  | t :: rest =>
    rcases hc : castVals (Char.ofNat t) rest with _ | l
    · rw [frombytes, hc] at h
      exact Option.noConfusion h
    · rw [frombytes, hc] at h
      match l with
      | [] => exact Option.noConfusion h
      | [a] => exact Option.noConfusion h
      | a :: b :: c2 :: l2 => exact Option.noConfusion h
      | [a, b] =>
        have h' : some (mkV c' a b) = some v := h
        have hv : v = mkV c' a b := by
          injection h' with h''
          exact h''.symm
        subst hv
        exact ⟨rfl, t, rest, a, b, rfl, hc, rfl⟩

/-- C3, witness for the amended theorem at a concrete decode. -/
theorem C3_decode_witness :
    (⟨VClass.short, 1, 2⟩ : Vec).cls = VClass.short
    ∧ ∃ t rest a b, bytesV (mkV VClass.base 1 2) = t :: rest
        ∧ castVals (Char.ofNat t) rest = some [a, b]
        ∧ (⟨VClass.short, 1, 2⟩ : Vec) = ⟨VClass.short, roundF64 a, roundF64 b⟩ :=
  C3_decode VClass.short _ _ decode_cross

/-- C4: for every vector, the encoding is one leading byte holding the ASCII
code of the variant's type code — 100 (`'d'`) for the base variant, 102
(`'f'`) for the derived variant — followed by `x` then `y` packed
back-to-back at the variant's width (8 bytes per coordinate for `'d'`,
4 for `'f'`), for a total of 17 bytes (base) or 9 bytes (derived). -/
theorem C4_encoding (x y : ℚ) :
    bytesV (mkV VClass.base x y)
      = ('d').toNat :: (packFloat 'd' (roundF64 x) ++ packFloat 'd' (roundF64 y))
    ∧ bytesV (mkV VClass.short x y)
      = ('f').toNat :: (packFloat 'f' (roundF64 x) ++ packFloat 'f' (roundF64 y))
    ∧ ('d').toNat = 100 ∧ ('f').toNat = 102
    ∧ (bytesV (mkV VClass.base x y)).length = 17
    ∧ (bytesV (mkV VClass.short x y)).length = 9
    ∧ (packFloat 'd' (roundF64 x)).length = 8
    ∧ (packFloat 'f' (roundF64 x)).length = 4 := by
  refine ⟨rfl, rfl, by decide, by decide, ?_, ?_, ?_, ?_⟩
  · simp [bytesV, mkV, typecode, packFloat, natToLE_length]
  · simp [bytesV, mkV, typecode, packFloat, natToLE_length]
  · simp [packFloat, natToLE_length]
  · simp [packFloat, natToLE_length]

/-- C9: for every pair of numeric inputs, a base `Vector2d` and a derived
`ShortVector2d` built from them compare equal and have identical hashes,
because `__eq__`, `__hash__` and `__init__` are shared unmodified and
construction performs no width narrowing. -/
theorem C9_cross_class (x y : ℚ) :
    pyEq (mkV VClass.base x y) (.vec (mkV VClass.short x y)) = true
    ∧ pyHash (mkV VClass.base x y) = pyHash (mkV VClass.short x y) := by
  constructor
  · simp [pyEq, eqImpl, tupleOf, mkV]
  · rfl

/-- C10: equality comparison never raises: comparing a vector with a
non-iterable object returns `NotImplemented`, so `==` evaluates to `False`;
comparing with an iterable of length other than two evaluates to
`False`. -/
theorem C10_eq_no_raise (v : Vec) :
    eqImpl v .notIterable = none
    ∧ pyEq v .notIterable = false
    ∧ ∀ l : List PyVal, l.length ≠ 2 → pyEq v (.seq l) = false := by
  refine ⟨rfl, rfl, ?_⟩
  intro l h
  show (some (listEqPy (tupleOf v) l)).getD false = false
  rw [Option.getD_some]
  exact listEqPy_len v.x v.y l h

/-- C10, witness at a length-one iterable. -/
theorem C10_witness : pyEq (mkV VClass.base 1 2) (.seq [.num 1]) = false :=
  (C10_eq_no_raise _).2.2 [.num 1] (by decide)

/-- C5: a vector compares equal to another vector, or to an ordered pair of
two numbers, exactly when the coordinate sequences are element-wise equal in
order — in particular a vector equals a structurally-matching non-vector
two-element sequence. -/
theorem C5_equality (v : Vec) :
    (∀ w : Vec, (pyEq v (.vec w) = true ↔ (v.x = w.x ∧ v.y = w.y)))
    ∧ ∀ a b : ℚ, (pyEq v (.seq [.num a, .num b]) = true ↔ (v.x = a ∧ v.y = b)) := by
  constructor
  · intro w
    show (some (decide (tupleOf v = tupleOf w))).getD false = true ↔ _
    rw [Option.getD_some]
    simp [tupleOf]
  · intro a b
    show (some (listEqPy (tupleOf v) [.num a, .num b])).getD false = true ↔ _
    rw [Option.getD_some, tupleOf]
    exact listEqPy_two v.x v.y a b

/-- C5, witness: `Vector2d(1, 2)` equals the plain sequence `[1, 2]` and the
vector `ShortVector2d(1, 2)`. -/
theorem C5_witness :
    pyEq (mkV VClass.base 1 2) (.seq [.num 1, .num 2]) = true
    ∧ pyEq (mkV VClass.base 1 2) (.vec (mkV VClass.short 1 2)) = true := by
  constructor
  · apply ((C5_equality _).2 1 2).mpr
    exact ⟨roundF64_one, roundF64_two⟩
  · apply ((C5_equality _).1 _).mpr
    exact ⟨rfl, rfl⟩

set_option maxRecDepth 100000 in
/-- C6: the hash is computed from the coordinate pair `(x, y)` by an
order-sensitive combination (CPython's tuple hash), so two vectors with
element-wise equal coordinate pairs hash identically and compare equal,
while transposed coordinates give a different hash. -/
theorem C6_hash (v w : Vec) (hx : v.x = w.x) (hy : v.y = w.y) :
    (pyHash v = pyHash w ∧ pyEq v (.vec w) = true)
    ∧ pyHash ⟨VClass.base, 1, 2⟩ ≠ pyHash ⟨VClass.base, 2, 1⟩ := by
  refine ⟨⟨?_, ?_⟩, ?_⟩
  · rw [pyHash, pyHash, hx, hy]
  · show (some (decide (tupleOf v = tupleOf w))).getD false = true
    rw [Option.getD_some]
    simp [tupleOf, hx, hy]
  · decide

/-- C6, witness: equal coordinate pairs across the two classes. -/
theorem C6_witness :
    pyHash (mkV VClass.base 3 4) = pyHash (mkV VClass.short 3 4)
    ∧ pyEq (mkV VClass.base 3 4) (.vec (mkV VClass.short 3 4)) = true :=
  (C6_hash (mkV VClass.base 3 4) (mkV VClass.short 3 4) rfl rfl).1

/-- C7: construction fails with `ValueError` exactly when one of the inputs
cannot be converted to a float (for example the non-numeric string
`"three"`), and construction is atomic: it either yields a fully built
vector of the constructing class whose coordinates are the two converted
values, or fails producing nothing; a numeric string such as `"1.5"`
succeeds. -/
theorem C7_invalid_input (c : VClass) :
    (∀ b : PyVal, initV c (.str "three") b = none)
    ∧ (∀ a b : PyVal, initV c a b = none ↔ (pyFloat a = none ∨ pyFloat b = none))
    ∧ (∀ (a b : PyVal) (v : Vec), initV c a b = some v →
        v.cls = c ∧ ∃ x y, pyFloat a = some x ∧ pyFloat b = some y ∧ v.x = x ∧ v.y = y)
    ∧ initV c (.str "1.5") (.num 2) = some ⟨c, roundF64 (3/2), roundF64 2⟩ := by
  have hthree : pyFloat (.str "three") = none := by
    show (parseDecStr "three").map roundF64 = none
    rw [show parseDecStr "three" = none from by decide]
    rfl
  have h15 : pyFloat (.str "1.5") = some (roundF64 (3/2)) := by
    show (parseDecStr "1.5").map roundF64 = some (roundF64 (3/2))
    have hps : parseDecStr "1.5"
        = some ((digitsVal ['1'] : ℚ) + (digitsVal ['5'] : ℚ) / 10 ^ (1:ℕ)) := rfl
    rw [hps, show digitsVal ['1'] = 1 from rfl, show digitsVal ['5'] = 5 from rfl]
    norm_num
  refine ⟨?_, ?_, ?_, ?_⟩
  · intro b
    unfold initV
    rw [hthree]
  · intro a b
    constructor
    · intro h
      cases ha : pyFloat a with
      | none => exact Or.inl rfl
      | some x =>
        cases hb : pyFloat b with
        | none => exact Or.inr rfl
        | some y =>
          exfalso
          unfold initV at h
          rw [ha, hb] at h
          exact Option.noConfusion h
    · intro h
      unfold initV
      rcases h with h | h
      · rw [h]
      · rw [h]
        cases ha : pyFloat a <;> rfl
  · intro a b v h
    cases ha : pyFloat a with
    | none =>
      exfalso
      unfold initV at h
      rw [ha] at h
      cases hb : pyFloat b <;> rw [hb] at h <;> exact Option.noConfusion h
    | some x =>
      cases hb : pyFloat b with
      | none =>
        exfalso
        unfold initV at h
        rw [ha, hb] at h
        exact Option.noConfusion h
      | some y =>
        unfold initV at h
        rw [ha, hb] at h
        injection h with h'
        subst h'
        exact ⟨rfl, x, y, rfl, rfl, rfl, rfl⟩
  · unfold initV
    rw [h15]
    rfl

/-- C7, witness: `Vector2d('three', 0)` raises `ValueError`. -/
theorem C7_witness : initV VClass.base (.str "three") (.num 0) = none :=
  (C7_invalid_input VClass.base).1 (.num 0)

/-- C2, counterexample: the claim promises decode-of-encode within about
`1e-6` relative tolerance for the single-precision variant; a subnormal
coordinate refutes it: `2^(-150)` is exactly representable in binary64, but
the `array('f', ...)` narrowing flushes it to zero, so the decoded vector
loses the coordinate entirely (relative error 1). -/
theorem C2_counterexample :
    frombytes VClass.short (bytesV (mkV VClass.short (2 ^ (-150 : ℤ)) 0))
      = some ⟨VClass.short, 0, 0⟩
    ∧ (mkV VClass.short (2 ^ (-150 : ℤ)) 0).x = 2 ^ (-150 : ℤ)
    ∧ ¬ (|(0 : ℚ) - 2 ^ (-150 : ℤ)| ≤ |(2 : ℚ) ^ (-150 : ℤ)| * (1/1000000)) := by
  refine ⟨?_, roundF64_pow150, ?_⟩
  · have hx : |roundF64 ((2 : ℚ) ^ (-150 : ℤ))| ≤ maxF32 := by
      rw [roundF64_pow150]
      apply abs_le_maxF32
      rw [abs_of_pos (by positivity)]
      calc (2:ℚ) ^ (-150 : ℤ) ≤ 1 := by
            apply zpow_le_one_of_nonpos₀ (by norm_num) (by norm_num)
      _ ≤ 2 ^ 24 := by norm_num
    have hy : |roundF64 (0:ℚ)| ≤ maxF32 := by
      rw [roundF64_zero]
      exact abs_le_maxF32 0 (by norm_num)
    have h := frombytes_bytesV_short VClass.short _ _ hx hy
    rw [roundF64_pow150, roundF32_pow150, roundF64_zero,
      show roundF32 0 = 0 from roundFmt_zero _ _] at h
    exact h
  · rw [zero_sub, abs_neg, abs_of_pos (by positivity : (0:ℚ) < 2 ^ (-150 : ℤ))]
    push_neg
    nlinarith [pow_pos (show (0:ℚ) < 2 by norm_num) 150,
      (show (0:ℚ) < 2 ^ (-150 : ℤ) by positivity)]

/-- C2 (amended): decoding the encoding of a vector reproduces the stored
coordinates exactly for the double-precision base variant (for finite
coordinate magnitudes); for the single-precision derived variant the decoded
coordinates are the binary32 roundings of the stored values, within
`2^(-24) < 1e-6` relative error whenever the coordinate magnitudes lie in
the binary32 normal range — subnormal coordinates can lose all relative
precision. -/
theorem C2_roundtrip :
    (∀ (c' : VClass) (x y : ℚ), |roundF64 x| ≤ maxF64 → |roundF64 y| ≤ maxF64 →
      frombytes c' (bytesV (mkV VClass.base x y)) = some ⟨c', roundF64 x, roundF64 y⟩)
    ∧ (∀ (c' : VClass) (x y : ℚ), |roundF64 x| ≤ maxF32 → |roundF64 y| ≤ maxF32 →
      frombytes c' (bytesV (mkV VClass.short x y))
        = some ⟨c', roundF32 (roundF64 x), roundF32 (roundF64 y)⟩)
    ∧ (∀ z : ℚ, 2 ^ (-126 : ℤ) ≤ |z| → |z| ≤ maxF32 →
      |roundF32 z - z| ≤ |z| * (1/1000000)) := by
  refine ⟨frombytes_bytesV_base, frombytes_bytesV_short, ?_⟩
  intro z hlo hup
  have h := roundFmt_rel_err 24 (-126) z hlo
  rw [show roundF32 z = roundFmt 24 (-126) z from rfl]
  calc |roundFmt 24 (-126) z - z| ≤ |z| * 2 ^ (-((24:ℕ) : ℤ)) := h
  _ ≤ |z| * (1/1000000) := by
      have h24 : (2:ℚ) ^ (-((24:ℕ) : ℤ)) ≤ 1/1000000 := by
        rw [show (-((24:ℕ) : ℤ)) = (-24 : ℤ) by norm_num]
        norm_num
      have := abs_nonneg z
      nlinarith

/-- C2, witness: an exact base-variant round trip at `(3, 4)` and the
single-precision tolerance at `1/2`. -/
theorem C2_roundtrip_witness :
    frombytes VClass.base (bytesV (mkV VClass.base 3 4))
      = some ⟨VClass.base, roundF64 3, roundF64 4⟩
    ∧ |roundF32 (1/2) - 1/2| ≤ |(1/2 : ℚ)| * (1/1000000) := by
  obtain ⟨h1, h2, h3⟩ := C2_roundtrip
  constructor
  · apply h1
    · rw [roundF64_three]
      exact abs_le_maxF64 3 (by norm_num)
    · rw [roundF64_four]
      exact abs_le_maxF64 4 (by norm_num)
  · apply h3
    · rw [abs_of_pos (by norm_num : (0:ℚ) < 1/2)]
      norm_num
    · apply abs_le_maxF32
      rw [abs_of_pos (by norm_num : (0:ℚ) < 1/2)]
      norm_num

/-- C8: `__format__` renders `"<magnitude, angle>"` (polar, with the
remaining spec applied to both components) when the spec ends in `'p'`, and
`"(x, y)"` (with the full spec applied to both coordinates) otherwise; in
particular `format(Vector2d(1, 1), '.2fp')` is `"<1.41, 0.79>"` and
`format(Vector2d(1, 0))` is `"(1.0, 0.0)"`. -/
theorem C8_format :
    (∀ (v : Vec) (spec : String), endsWithP spec = true →
      pyFormat v spec = "<" ++ fmtComponent (dropLastChar spec) (magV v) ++ ", "
        ++ fmtComponent (dropLastChar spec) (angleV v) ++ ">")
    ∧ (∀ (v : Vec) (spec : String), endsWithP spec = false →
      pyFormat v spec = "(" ++ fmtComponent spec ((v.x : ℝ)) ++ ", "
        ++ fmtComponent spec ((v.y : ℝ)) ++ ")")
    ∧ pyFormat (mkV VClass.base 1 1) ".2fp" = "<1.41, 0.79>"
    ∧ pyFormat (mkV VClass.base 1 0) "" = "(1.0, 0.0)" := by
  have hmk11 : mkV VClass.base 1 1 = ⟨VClass.base, 1, 1⟩ := by
    rw [mkV, roundF64_one]
  have hmk10 : mkV VClass.base 1 0 = ⟨VClass.base, 1, 0⟩ := by
    rw [mkV, roundF64_one, roundF64_zero]
  refine ⟨?_, ?_, ?_, ?_⟩
  · intro v spec h
    rw [pyFormat, if_pos h]
  · intro v spec h
    rw [pyFormat, if_neg (by rw [h]; exact Bool.false_ne_true)]
  · rw [hmk11, pyFormat, if_pos (by decide),
      show dropLastChar ".2fp" = ".2f" from by decide,
      magV_one_one, angleV_one_one,
      fmtComponent, if_neg (by decide), if_pos rfl, renderFixed2_sqrt2,
      fmtComponent, if_neg (by decide), if_pos rfl, renderFixed2_pi4]
    decide
  · rw [hmk10, pyFormat, if_neg (by decide)]
    show "(" ++ fmtComponent "" (((1:ℚ) : ℝ)) ++ ", "
      ++ fmtComponent "" (((0:ℚ) : ℝ)) ++ ")" = "(1.0, 0.0)"
    rw [show (((1:ℚ) : ℝ)) = 1 by norm_num, show (((0:ℚ) : ℝ)) = 0 by norm_num,
      fmtComponent, if_pos rfl, renderDefault_one,
      fmtComponent, if_pos rfl, renderDefault_zero]
    decide

/-- C8, witness for the polar branch at the concrete spec `'.2fp'`. -/
theorem C8_witness :
    endsWithP ".2fp" = true
    ∧ pyFormat (mkV VClass.base 1 1) ".2fp"
        = "<" ++ fmtComponent (dropLastChar ".2fp") (magV (mkV VClass.base 1 1)) ++ ", "
          ++ fmtComponent (dropLastChar ".2fp") (angleV (mkV VClass.base 1 1)) ++ ">" :=
  ⟨by decide, C8_format.1 (mkV VClass.base 1 1) ".2fp" (by decide)⟩



end Vector2d
